import Mathlib

/-!
Verification development for the zgoubidoo parametric input-sequence model:
a shallow embedding of `zgoubidoo/input.py` (`ParametricMapping`, `Input`,
`ZgoubiInputValidator`) and `zgoubidoo/commands/commands.py` (`Command`).

Embedding conventions:
 - Python strings are embedded as `String` (for identifiers) or `List Char`
   (for serialized streams, where the character-level operations of the source
   -- `split`, `strip`, `join` -- are reproduced);
 - Python dicts are embedded as ordered association lists with Python's
   update semantics (an existing key keeps its position, a new key is
   appended);
 - Python attribute values are embedded as the inductive `PyVal`;
 - fallible operations (Python code that can raise) return `Except String`;
 - the process-wide random label generator (`uuid.uuid4().hex`, truncated)
   is passed in explicitly as a `fresh : String` argument.
-/

namespace Zgoubidoo

/-- Embedded Python attribute values as they occur in command parameter
tables: `None`, strings, integers, pint quantities (magnitude with a unit),
booleans, and the `(default, docstring)` tuples used in `PARAMETERS`. -/
inductive PyVal where
  | none
  | str (s : String)
  | int (n : Int)
  | qty (mag : Int) (unit : String)
  | bool (b : Bool)
  | tup (v : PyVal) (doc : String)
  deriving DecidableEq, Repr

/-- Decidable equality for `Except` values (both channels decidable). -/
instance exceptDecEq {ε α : Type} [DecidableEq ε] [DecidableEq α] : DecidableEq (Except ε α) :=
  fun x y =>
    match x, y with
    | .ok a, .ok b =>
      if h : a = b then isTrue (by rw [h]) else isFalse (by intro e; injection e; contradiction)
    | .error a, .error b =>
      if h : a = b then isTrue (by rw [h]) else isFalse (by intro e; injection e; contradiction)
    | .ok _, .error _ => isFalse (by intro e; cases e)
    | .error _, .ok _ => isFalse (by intro e; cases e)

/-- Python dict lookup `d.get(k)` on an ordered association list. -/
def alGet {κ V : Type} [DecidableEq κ] (d : List (κ × V)) (k : κ) : Option V :=
  match d with
  | [] => Option.none
  | (k', v) :: rest => if k' = k then some v else alGet rest k

/-- Python dict assignment `d[k] = v`: an existing key keeps its position and
gets the new value; a new key is appended at the end. -/
def alSet {κ V : Type} [DecidableEq κ] (d : List (κ × V)) (k : κ) (v : V) : List (κ × V) :=
  match d with
  | [] => [(k, v)]
  | (k', v') :: rest => if k' = k then (k', v) :: rest else (k', v') :: alSet rest k v

/-- Python dict merge `dict(d, **e)`: start from `d` and assign every entry
of `e` in order. -/
def dictUpdate {κ V : Type} [DecidableEq κ] (d e : List (κ × V)) : List (κ × V) :=
  e.foldl (fun acc kv => alSet acc kv.1 kv.2) d

/-- Python `dict(pairs)`: fold the pairs into an empty dict. -/
def dictOfPairs {κ V : Type} [DecidableEq κ] (l : List (κ × V)) : List (κ × V) :=
  dictUpdate [] l

/-- Drop matching characters from the right end of a character list
(the right half of Python's `strip`/`rstrip`). -/
def dropEndWhile (p : Char → Bool) (l : List Char) : List Char :=
  (l.reverse.dropWhile p).reverse

/-- Prepend characters onto the first piece of a split result. -/
def prependHead (a : List Char) : List (List Char) → List (List Char)
  | [] => [a]
  | h :: t => (a ++ h) :: t

/-- Split a character list on every occurrence of a single separator
character, Python `s.split(sep)` (adjacent separators yield empty pieces). -/
def splitOnChar (sep : Char) : List Char → List (List Char)
  | [] => [[]]
  | c :: rest =>
    if c = sep then [] :: splitOnChar sep rest
    else prependHead [c] (splitOnChar sep rest)

/-- Split on the two-character separator `"\n\n"`, non-overlapping and
left-to-right, Python `s.split('\n\n')`. -/
def splitNN : List Char → List (List Char)
  | [] => [[]]
  | [c] => [[c]]
  | c1 :: c2 :: rest =>
    if c1 = '\n' ∧ c2 = '\n' then [] :: splitNN rest
    else prependHead [c1] (splitNN (c2 :: rest))

/-- Characters stripped by Python `str.strip()` (the whitespace occurring in
the streams under study). -/
def isWsChar (c : Char) : Bool := c = ' ' ∨ c = '\n' ∨ c = '\t' ∨ c = '\r'

/-- Python `s.strip()`. -/
def stripWs (l : List Char) : List Char :=
  dropEndWhile isWsChar (l.dropWhile isWsChar)

/-- Python `s.strip('\n')`. -/
def stripNLs (l : List Char) : List Char :=
  dropEndWhile (fun c => c = '\n') (l.dropWhile (fun c => c = '\n'))

/-- Python `'\n'.join(parts)`. -/
def joinNL : List (List Char) → List Char
  | [] => []
  | h :: t => h ++ (t.map (fun p => '\n' :: p)).flatten

/-- Python `s.split('\n')`. -/
def splitNL : List Char → List (List Char) := splitOnChar '\n'

/-- Whitespace-separated non-empty words of a character list. -/
def splitWords (l : List Char) : List (List Char) :=
  (splitOnChar ' ' l).filter (fun w => w ≠ [])

/-- Python `str.capitalize()`: first character upper-cased, the rest
lower-cased. -/
def pyCapitalize : List Char → List Char
  | [] => []
  | c :: rest => c.toUpper :: rest.map Char.toLower

/-- Numeric value of an all-digit character list. -/
def digitsVal? (l : List Char) : Option Nat :=
  if l = [] ∨ ¬ l.all Char.isDigit then Option.none
  else some (l.foldl (fun acc c => 10 * acc + (c.toNat - 48)) 0)

/-- Integer value of a decimal character list with an optional leading sign. -/
def intVal? : List Char → Option Int
  | '-' :: rest => (digitsVal? rest).map (fun n => -(n : Int))
  | l => (digitsVal? l).map (fun n => (n : Int))

/-- Unit names understood by the embedded model of the pint unit registry. -/
def knownUnits : List String := ["cm", "m", "mm", "km", "radian", "degree", "s"]

/-- Model of pint's string parsing: a bare number is dimensionless, a number
followed by a known unit is a quantity, anything else is unparseable. -/
def parseQty (s : String) : Option (Int × Option String) :=
  match splitWords s.data with
  | [t] => (intVal? t).map (fun n => (n, Option.none))
  | [t, u] =>
    match intVal? t with
    | some n => if knownUnits.contains (String.mk u) then some (n, some (String.mk u)) else Option.none
    | Option.none => Option.none
  | _ => Option.none

/-- Model of the pint quantity constructor `Q_` as called in
`Command.__getattr__`: numbers are dimensionless quantities, strings are
parsed, quantities pass through, and any other argument raises
(`TypeError` / `ValueError` / `UndefinedUnitError`), modelled as
`Except.error`.  The result is (magnitude, unit), unit `none` meaning
dimensionless. -/
def pintQ : PyVal → Except String (Int × Option String)
  | .int n => .ok (n, Option.none)
  | .str s =>
    match parseQty s with
    | some r => .ok r
    | Option.none => .error "UndefinedUnitError"
  | .qty m u => .ok (m, some u)
  | _ => .error "TypeError"

/-- The concrete command classes of `zgoubidoo/commands/commands.py` needed by
the claims, plus the source kinds `Objet`/`MCObjet` that `input.py` references
(their class bodies live outside src/). -/
inductive Kind where
  | objet
  | mcobjet
  | autoref
  | beambeam
  | marker
  | cible
  | histo
  | image
  | matrix
  | endcmd
  deriving DecidableEq, Repr

/-- The class attribute `KEYWORD` of each command class. -/
def Kind.keyword : Kind → String
  | .objet => "OBJET"
  | .mcobjet => "MCOBJET"
  | .autoref => "AUTOREF"
  | .beambeam => "BEAMBEAM"
  | .marker => "MARKER"
  | .cible => "CIBLE"
  | .histo => "HISTO"
  | .image => "IMAGE"
  | .matrix => "MATRIX"
  | .endcmd => "END"

/-- The names bound in the `zgoubidoo.commands` module namespace, as used by
`getattr(zgoubidoo.commands, ...)` in `Input.parse` and `Input._filter`.
`Objet` and `MCObjet` are bound there by the package but defined outside
src/. -/
def commandsModule : List (String × Kind) :=
  [("Objet", Kind.objet), ("MCObjet", Kind.mcobjet), ("AutoRef", Kind.autoref),
   ("BeamBeam", Kind.beambeam), ("Marker", Kind.marker), ("Cible", Kind.cible),
   ("Histo", Kind.histo), ("Image", Kind.image), ("Matrix", Kind.matrix),
   ("End", Kind.endcmd)]

/-- `getattr(zgoubidoo.commands, name)`. -/
def moduleLookup (n : List Char) : Option Kind :=
  (commandsModule.find? (fun e => e.1.data = n)).map (fun e => e.2)

/-- The class-level `PARAMETERS` dict of each kind beyond the base
`Command.PARAMETERS`; only `Matrix` among the embedded kinds declares extra
parameters. -/
def Kind.parameters : Kind → List (String × PyVal)
  | .matrix => [("IORD", PyVal.int 1),
                ("IFOC", PyVal.tup (PyVal.int 11) "If IFOC=11, periodic parameters (single pass)")]
  | _ => []

/-- The base `Command.PARAMETERS`. -/
def baseParameters : List (String × PyVal) := [("LABEL1", PyVal.str ""), ("LABEL2", PyVal.str "")]

/-- One typed, labeled command: its class (`kind`), its `_attributes` dict and
its `_output` slot. -/
structure Command where
  kind : Kind
  attributes : List (String × PyVal)
  outputV : PyVal := PyVal.none
  deriving DecidableEq, Repr

/-- `Command.__init__`: merge the base parameters, the class parameters and
the labels (an empty `label1` is replaced by a fresh random token, here the
explicit `fresh` argument), then apply keyword arguments, ignoring (with a
printed warning) any name that is not a declared parameter. -/
def Command.init (kind : Kind) (label1 label2 : String) (fresh : String)
    (kwargs : List (String × PyVal)) : Command :=
  let attrs0 := dictUpdate (dictUpdate baseParameters kind.parameters)
      [("LABEL1", PyVal.str (if label1 = "" then fresh else label1)),
       ("LABEL2", PyVal.str label2)]
  let attrs := kwargs.foldl
      (fun d kv => if (alGet d kv.1).isSome then alSet d kv.1 kv.2 else d) attrs0
  { kind := kind, attributes := attrs, outputV := PyVal.none }

/-- The first component of a `(default, doc)` tuple, other values
unchanged (`attr = self._attributes[a][0] if tuple else self._attributes[a]`). -/
def untup : PyVal → PyVal
  | PyVal.tup x _ => x
  | x => x

/-- `isinstance(attr, Q_)`. -/
def isQtyVal : PyVal → Bool
  | PyVal.qty _ _ => true
  | _ => false

/-- The conversion applied by `Command.__getattr__` to a present, non-`None`,
untupled attribute value: the empty string and quantities pass through;
otherwise the value goes through `Q_`, a dimensionless result collapsing to
its magnitude, and every `Q_` failure (`TypeError` / `ValueError` /
`UndefinedUnitError`) is caught, returning the raw value. -/
def convAttr (attr : PyVal) : PyVal :=
  if attr = PyVal.str "" ∨ isQtyVal attr = true then attr
  else
    match pintQ attr with
    | .ok (n, Option.none) => PyVal.int n
    | .ok (n, some u) => PyVal.qty n u
    | .error _ => attr

/-- `Command.__getattr__` (the fallback invoked when ordinary attribute lookup
fails): a missing or `None`-valued entry of `_attributes` yields `None`;
otherwise the stored value is untupled and converted.  The error channel of
the result is the set of uncaught exceptions: every branch returns
`Except.ok`, because every exception `Q_` can raise is caught in the
source. -/
def Command.pyGetattrE (c : Command) (a : String) : Except String PyVal :=
  match alGet c.attributes a with
  | Option.none => .ok PyVal.none
  | some v =>
    if v = PyVal.none then .ok PyVal.none
    else .ok (convAttr (untup v))

/-- Attribute read, unwrapped (the exceptional branch is provably dead). -/
def Command.pyGetattr (c : Command) (a : String) : PyVal :=
  match c.pyGetattrE a with
  | .ok v => v
  | .error _ => PyVal.none

/-- `Command.__setattr__`: the two instance fields are stored in `__dict__`,
everything else goes into the `_attributes` dict; no branch raises, so the
result is always `Except.ok` (the `except ZgoubidooException` around
broadcast assignment in `Input.__setattr__` is dead for these commands).
Rebinding `_attributes` itself would replace the dict with the assigned
value; that value is not an association list here, and no code path under
study assigns it, so it is modelled as a no-op. -/
def Command.trySetattr (c : Command) (a : String) (v : PyVal) : Except String Command :=
  .ok <|
    if a = "_attributes" then c
    else if a = "_output" then { c with outputV := v }
    else { c with attributes := alSet c.attributes a v }

/-- Eight spaces: the indentation of the f-string blocks in
`commands.py`. -/
def sp8 : List Char := "        ".data

/-- Rendering of a `PyVal` inside an f-string (`str()`), as far as the
embedded values go. -/
def PyVal.format : PyVal → List Char
  | PyVal.none => "None".data
  | PyVal.str s => s.data
  | PyVal.int n => (toString n).data
  | PyVal.bool b => (if b then "True" else "False").data
  | PyVal.qty m u => (toString m).data ++ ' ' :: u.data
  | PyVal.tup v d => '(' :: PyVal.format v ++ ", ".data ++ '\'' :: d.data ++ '\'' :: [')']

/-- The base `Command.__str__`:
an f-string `"\n        '{KEYWORD}' {LABEL1} {LABEL2}\n        "`. -/
def Command.strBase (c : Command) : List Char :=
  '\n' :: sp8 ++ '\'' :: c.kind.keyword.data ++ '\'' :: ' ' :: (c.pyGetattr "LABEL1").format
    ++ ' ' :: (c.pyGetattr "LABEL2").format ++ '\n' :: sp8

/-- `Matrix.__str__`: the rstripped base block followed by
`"{IORD} {IFOC} PRINT"`. -/
def Command.strMatrix (c : Command) : List Char :=
  '\n' :: sp8 ++ dropEndWhile isWsChar c.strBase
    ++ '\n' :: sp8 ++ (c.pyGetattr "IORD").format ++ ' ' :: (c.pyGetattr "IFOC").format
    ++ " PRINT".data ++ '\n' :: sp8

/-- `str(command)`: `Matrix` overrides `__str__`; the other embedded kinds
use the base block (for `Objet`/`MCObjet`, whose override lives outside src/,
the base block stands in; no theorem below depends on their exact block). -/
def Command.str (c : Command) : List Char :=
  match c.kind with
  | Kind.matrix => c.strMatrix
  | _ => c.strBase

/-- `isinstance(c, End)`. -/
def Command.isEnd (c : Command) : Bool := c.kind = Kind.endcmd

/-- A compound key of a parametric mapping: (target label, parameter name). -/
abbrev CKey := String × String

/-- One mapping group: an ordered dict from compound keys to value lists. -/
abbrev Group := List (CKey × List PyVal)

/-- A flat mapping of compound keys to single values (one combination, and
also the argument/return type of `Input.adjust`). -/
abbrev AdjMap := List (CKey × PyVal)

/-- Python `zip(*lists)` (as lists instead of tuples): lockstep zip of any
number of lists, truncated to the shortest; `zip()` of no lists is empty. -/
def zipStar : List (List PyVal) → List (List PyVal)
  | [] => []
  | [l] => l.map (fun x => [x])
  | l :: ls => (l.zip (zipStar ls)).map (fun p => p.1 :: p.2)

/-- `itertools.product(*pools)`: the cartesian product of the pools, the
first pool being the outermost (slowest-varying) loop. -/
def itertoolsProduct {α : Type} : List (List α) → List (List α)
  | [] => [[]]
  | p :: ps => p.flatMap (fun x => (itertoolsProduct ps).map (fun t => x :: t))

/-- `ParametricMapping.labels`: the flattened compound keys of all groups,
order preserving (iterating a dict yields its keys). -/
def ParametricMapping.labels (pm : List Group) : List CKey :=
  (pm.map (fun g => g.map (fun e => e.1))).flatten

/-- `ParametricMapping.pools`:
`[list(map(tuple, zip(*arg.values()))) for arg in self.mappings]`. -/
def ParametricMapping.pools (pm : List Group) : List (List (List PyVal)) :=
  pm.map (fun g => zipStar (g.map (fun e => e.2)))

/-- `ParametricMapping.combinations`: flatten each element of the cartesian
product of the pools and zip it against the labels into a dict; an empty
(falsy) result list is replaced by the single empty combination
(`or [{}]`). -/
def ParametricMapping.combinations (pm : List Group) : List AdjMap :=
  let poolValues := (itertoolsProduct (ParametricMapping.pools pm)).map List.flatten
  let r := poolValues.map (fun v => dictOfPairs ((ParametricMapping.labels pm).zip v))
  if r.isEmpty then [[]] else r

/-- The `Input` object: its name, its command sequence (`self._line`), the
materialized paths (`self._paths`: mapping, directory, executed flag) and the
other entries of the instance `__dict__` (underscore-keyed attribute
assignments land there). -/
structure Input where
  name : String
  line : List Command
  paths : List (AdjMap × String × Bool) := []
  extraDict : List (String × PyVal) := []
  deriving DecidableEq, Repr

/-- Python `key.startswith('_')`. -/
def pyStartsWithUnderscore (s : String) : Bool :=
  match s.data with
  | [] => false
  | c :: _ => c = '_'

/-- `Input.__setattr__`: an underscore-prefixed key is stored on the object's
own `__dict__`; any other key is broadcast to every command of the sequence,
a command raising the library exception being silently skipped. -/
def Input.pySetattr (zi : Input) (key : String) (v : PyVal) : Input :=
  if pyStartsWithUnderscore key then { zi with extraDict := alSet zi.extraDict key v }
  else
    { zi with line := zi.line.map (fun e =>
        match e.trySetattr key v with
        | .ok e' => e'
        | .error _ => e) }

/-- Scan for the first command whose `LABEL1` equals the given string,
carrying its position (`Input.__getattr__` / `Input.index`). -/
def findLabelAux (lbl : String) : Nat → List Command → Option (Nat × Command)
  | _, [] => Option.none
  | i, c :: rest =>
    if c.pyGetattr "LABEL1" = PyVal.str lbl then some (i, c)
    else findLabelAux lbl (i + 1) rest

/-- `Input.__getattr__` resolution of a label to (index, command). -/
def Input.firstWithLabel (zi : Input) (lbl : String) : Option (Nat × Command) :=
  findLabelAux lbl 0 zi.line

/-- Python `s.rstrip('_')`. -/
def rstripUnderscores (s : String) : String :=
  String.mk (dropEndWhile (fun c => c = '_') s.data)

/-- `Input.adjust`: for each compound key in order, the `ALL_LINE` anchor
records `None` as the prior value and broadcasts the assignment through
`Input.__setattr__`; any other anchor resolves (raising `AttributeError` when
no command carries the label), records the current attribute value (with
trailing underscores stripped from the parameter name for the read only) and
sets the attribute on that command.  Returns the final sequence and the dict
of recorded prior values. -/
def Input.adjust (zi : Input) (m : AdjMap) : Except String (Input × AdjMap) :=
  match m with
  | [] => .ok (zi, [])
  | ((a, p), v) :: rest =>
    if a = "ALL_LINE" then
      match (zi.pySetattr p v).adjust rest with
      | .ok (zi', acc) => .ok (zi', ((a, p), PyVal.none) :: acc)
      | .error e => .error e
    else
      match zi.firstWithLabel a with
      | Option.none => .error "AttributeError"
      | some (i, c) =>
        let prior := c.pyGetattr (rstripUnderscores p)
        let c' := match c.trySetattr p v with
          | .ok x => x
          | .error _ => c
        match ({ zi with line := zi.line.set i c' } : Input).adjust rest with
        | .ok (zi', acc) => .ok (zi', ((a, p), prior) :: acc)
        | .error e => .error e

/-- The implicit `End` appended by `Input.build` when the line is empty or
does not already finish with an `End` (the fresh random label of the new
`End()` is the explicit `fresh` argument). -/
def Input.buildExtraEnd (line : List Command) (fresh : String) : List Command :=
  if line.length = 0 ∨ ((line.getLast?.map Command.isEnd).getD false) = false then
    [Command.init Kind.endcmd "" "" fresh []]
  else []

/-- `Input.build`: `''.join(map(str, [name] + list(line) + (extra_end or [])))`. -/
def Input.build (name : String) (line : List Command) (fresh : String) : List Char :=
  name.data ++ (line.map Command.str).flatten
    ++ ((Input.buildExtraEnd line fresh).map Command.str).flatten

/-- `str(zi)` / `Input.__str__`: `self.build(self._name, self._line)`. -/
def Input.strInput (zi : Input) (fresh : String) : List Char :=
  Input.build zi.name zi.line fresh

/-- The CPython semantics of `for i, p in enumerate(lst): if p[0] == m: del lst[i]`
in `Input._generate`: deleting the element at the cursor shifts the next
element into its slot, which the cursor then skips. -/
def delMatchesPy (m : AdjMap) : List (AdjMap × String × Bool) → List (AdjMap × String × Bool)
  | [] => []
  | p :: rest =>
    if p.1 = m then
      match rest with
      | [] => []
      | q :: rest' => q :: delMatchesPy m rest'
    else p :: delMatchesPy m rest

/-- The loop body of `Input._generate` over the supplied mappings: deduplicate
paths, `adjust` to the mapping, keep the `initial_state` bookkeeping
(`initial_state` starts as the empty dict -- not `None` -- so the
`if initial_state is None` branch can never fire), allocate the next working
directory, and write the serialized input there.  Returns the final sequence,
the `initial_state`, the new `(mapping, directory, False)` records and the
written files. -/
def generateGo (fresh : String) :
    Input → Option AdjMap → List AdjMap → List String →
    Except String (Input × Option AdjMap × List (AdjMap × String × Bool) × List (String × List Char))
  | zi, initialState, [], _dirs => .ok (zi, initialState, [], [])
  | zi, initialState, mapping :: rest, dirs =>
    let zi := if (zi.paths.map (fun p => p.1)).contains mapping then
        { zi with paths := delMatchesPy mapping zi.paths }
      else zi
    match zi.adjust mapping with
    | .error e => .error e
    | .ok (zi, previousState) =>
      let initialState := if initialState.isNone then some previousState else initialState
      let dir := dirs.headD "tmp"
      let text := Input.strInput zi fresh
      match generateGo fresh zi initialState rest dirs.tail with
      | .error e => .error e
      | .ok (zi', ist, paths, written) =>
        .ok (zi', ist, (mapping, dir, false) :: paths, (dir, text) :: written)

/-- `Input._generate`: default the mappings to the single empty mapping, run
the loop, then `self.adjust(initial_state)` -- which, because
`initial_state` is still the empty dict, adjusts nothing.  (No `Beam` command
kind is embedded -- the `Beam` class lives outside src/ -- so
`self.beam_mappings` is empty and the product step is skipped.) -/
def Input.generate (zi : Input) (mappings0 : List AdjMap) (dirs : List String) (fresh : String) :
    Except String (Input × List (AdjMap × String × Bool) × List (String × List Char)) :=
  let mappings := if mappings0.isEmpty then [[]] else mappings0
  match generateGo fresh zi (some []) mappings dirs with
  | .error e => .error e
  | .ok (zi', initialState, paths, written) =>
    match zi'.adjust (initialState.getD []) with
    | .error e => .error e
    | .ok (zi'', _) => .ok (zi'', paths, written)

/-- `ZgoubiInputValidator.validate_objet_is_first_command`: raise a
`ZgoubiInputException` when the sequence is non-empty and its first element
is not an `Objet`/`MCObjet` (the only subclasses in scope are those two
roots), otherwise return `True`. -/
def validateObjetIsFirstCommand (zi : Input) : Except String Bool :=
  match zi.line with
  | [] => .ok true
  | c :: _ =>
    if c.kind = Kind.objet ∨ c.kind = Kind.mcobjet then .ok true
    else .error "The first command in the input is not an Objet. (or MCObjet)."

/-- The `parse.search` template `"'{KEYWORD}'"` applied to a block: the text
between the first quote pair, with the remainder of the block after the
closing quote; fails when there is no complete quote pair. -/
def extractKeyword (block : List Char) : Option (List Char × List Char) :=
  match block.dropWhile (fun c => c ≠ '\'') with
  | [] => Option.none
  | _ :: after =>
    let kw := after.takeWhile (fun c => c ≠ '\'')
    match after.dropWhile (fun c => c ≠ '\'') with
    | [] => Option.none
    | _ :: rest => some (kw, rest)

/-- Modelled from the spec: `Command.build`, the per-class deserializer that
`Input.parse` calls, is not part of src/ (only its call site is).  Per the
spec's round-trip contract, parsing a serialized block recovers the
command's keyword line: the tokens following the quoted keyword on that line
are `LABEL1` and `LABEL2` (defaulting to empty), and the command is
reconstructed from the class with those labels and the class's declared
parameter defaults. -/
def Command.buildFromBlock (kind : Kind) (block : List Char) : Command :=
  match extractKeyword block with
  | Option.none => Command.init kind "" "" "" []
  | some (_, rest) =>
    let toks := splitWords (rest.takeWhile (fun c => c ≠ '\n'))
    Command.init kind (String.mk (toks.headD [])) (String.mk ((toks.drop 1).headD [])) "" []

/-- One block of `Input.parse`'s comprehension: search the quoted keyword
(`parse.search` returning `None` is a `TypeError` at the subscript),
capitalize it and look it up in `zgoubidoo.commands` (a missing name is an
`AttributeError`), then build the command from the block. -/
def parseBlock (block : List Char) : Except String Command :=
  match extractKeyword block with
  | Option.none => .error "TypeError"
  | some (kw, _) =>
    match moduleLookup (pyCapitalize kw) with
    | Option.none => .error "AttributeError"
    | some kind => .ok (Command.buildFromBlock kind block)

/-- `Input.parse`: strip every line, rejoin, strip outer newlines, split on
blank lines, and build one command per block; the new `Input` keeps the
default name. -/
def Input.parse (stream : List Char) : Except String Input :=
  let cleaned := joinNL ((splitNL stream).map stripWs)
  let blocks := splitNN (stripNLs cleaned)
  match blocks.mapM parseBlock with
  | .ok cmds => .ok { name := "beamline", line := cmds, paths := [], extraDict := [] }
  | .error e => .error e

/-!
Store-passing model of `Input.__getitem__` (slicing and filtering), for the
claims about mutation and independence.  Python passes `Command` objects by
reference: the store holds the command objects, an input's `_line` holds
references into it, and slicing/filtering copies the reference list, not the
objects.
-/

/-- The object store: command objects addressed by position. -/
abbrev Store := List Command

/-- An `Input` whose line holds references into a `Store`. -/
structure RefInput where
  name : String
  line : List Nat
  deriving DecidableEq, Repr

/-- The commands an input denotes, resolved through the store. -/
def RefInput.resolve (st : Store) (zi : RefInput) : List (Option Command) :=
  zi.line.map (fun i => st.get? i)

/-- A slice endpoint: an integer position, a `LABEL1` string (resolved via
`Input.index`), or absent. -/
inductive SliceArg where
  | num (n : Nat)
  | label (s : String)
  | noneA
  deriving DecidableEq, Repr

/-- `Input.index` on the store model: position of the first command whose
`LABEL1` equals the string; `ValueError` if absent. -/
def RefInput.indexOf (st : Store) (zi : RefInput) (lbl : String) : Option Nat :=
  zi.line.findIdx? (fun i =>
    match st.get? i with
    | some c => c.pyGetattr "LABEL1" = PyVal.str lbl
    | Option.none => false)

/-- Resolution of a slice's start bound: labels go through `self.index`. -/
def resolveStart (st : Store) (zi : RefInput) : SliceArg → Except String (Option Nat)
  | SliceArg.num n => .ok (some n)
  | SliceArg.label s =>
    match zi.indexOf st s with
    | some i => .ok (some i)
    | Option.none => .error "ValueError"
  | SliceArg.noneA => .ok Option.none

/-- Resolution of a slice's stop bound: labels go through `self.index` and
the result is made exclusive by adding one. -/
def resolveStop (st : Store) (zi : RefInput) : SliceArg → Except String (Option Nat)
  | SliceArg.num n => .ok (some n)
  | SliceArg.label s =>
    match zi.indexOf st s with
    | some i => .ok (some (i + 1))
    | Option.none => .error "ValueError"
  | SliceArg.noneA => .ok Option.none

/-- `itertools.islice(seq, start, stop)` with unit step. -/
def isliceIds (l : List Nat) (start stop : Option Nat) : List Nat :=
  (l.take (stop.getD l.length)).drop (start.getD 0)

/-- The display of a slice endpoint inside the sliced input's name:
`getattr(bound, 'LABEL1', bound)` formatted (strings and ints have no
`LABEL1`, so the bound itself is printed; `None` prints as `None`). -/
def SliceArg.display : SliceArg → List Char
  | SliceArg.num n => (toString n).data
  | SliceArg.label s => s.data
  | SliceArg.noneA => "None".data

/-- `Input.__getitem__` with a slice argument: resolve the bounds, then
return a new `Input` over a copy of the reference list; the store (the
command objects) is returned unchanged and shared. -/
def RefInput.getitemSlice (st : Store) (zi : RefInput) (start stop : SliceArg) :
    Except String (Store × RefInput) :=
  match resolveStart st zi start with
  | .error e => .error e
  | .ok s =>
    match resolveStop st zi stop with
    | .error e => .error e
    | .ok e =>
      .ok (st,
        { name := String.mk (zi.name.data ++ "_sliced_from_".data ++ start.display
            ++ "_to_".data ++ stop.display),
          line := isliceIds zi.line s e })

/-- A filtering selector: a class object or a string naming a class. -/
inductive Selector where
  | byClass (k : Kind)
  | byName (s : String)
  deriving DecidableEq, Repr

/-- The resolution step of `Input._filter`: strings are capitalized and
looked up in `zgoubidoo.commands`; one missing name aborts the whole
resolution (the `AttributeError` branch). -/
def resolveSelectors : List Selector → Option (List Kind)
  | [] => some []
  | Selector.byClass k :: rest => (resolveSelectors rest).map (fun ks => k :: ks)
  | Selector.byName s :: rest =>
    match moduleLookup (pyCapitalize s.data) with
    | some k => (resolveSelectors rest).map (fun ks => k :: ks)
    | Option.none => Option.none

/-- `Input._filter` on the store model: on resolution failure return the
empty list, otherwise keep (in order) the references whose command is an
instance of one of the resolved classes. -/
def RefInput.filterRefs (st : Store) (zi : RefInput) (items : List Selector) : List Nat :=
  match resolveSelectors items with
  | Option.none => []
  | some kinds =>
    zi.line.filter (fun i =>
      match st.get? i with
      | some c => kinds.contains c.kind
      | Option.none => false)

/-- The display name of a selector inside the filtered input's name:
`x.__name__` for classes, the string itself otherwise. -/
def Selector.display : Selector → String
  | Selector.byClass k => ((commandsModule.find? (fun e => e.2 = k)).map (fun e => e.1)).getD ""
  | Selector.byName s => s

/-- Python `str(tuple_of_strings)`: `('a', 'b')`, with the singleton comma. -/
def pyTupleRepr (names : List String) : List Char :=
  let quoted := names.map (fun n => '\'' :: n.data ++ ['\''])
  match quoted with
  | [] => "()".data
  | [q] => '(' :: q ++ ",)".data
  | q :: qs => '(' :: q ++ (qs.map (fun x => ", ".data ++ x)).flatten ++ [')']

/-- The name of a filtered input: the f-string
`"{name}_filtered_by_{items}"` followed by the replacement chain
`,→_`, drop spaces, quotes and parentheses, then `rstrip('_')`. -/
def filteredName (base : String) (items : List Selector) : String :=
  let rep := pyTupleRepr (items.map Selector.display)
  let cleaned := (rep.map (fun c => if c = ',' then '_' else c)).filter
      (fun c => c ≠ ' ' ∧ c ≠ '\'' ∧ c ≠ '(' ∧ c ≠ ')')
  String.mk (dropEndWhile (fun c => c = '_') (base.data ++ "_filtered_by_".data ++ cleaned))

/-- `Input.__getitem__` with selectors: a new `Input` over the filtered
reference list; the store is unchanged and shared. -/
def RefInput.getitemFilter (st : Store) (zi : RefInput) (items : List Selector) :
    Store × RefInput :=
  (st, { name := filteredName zi.name items, line := zi.filterRefs st items })

/-- `Input.__iadd__` on the store model: allocate the appended command in the
store and append its reference. -/
def RefInput.iadd (st : Store) (zi : RefInput) (c : Command) : Store × RefInput :=
  (st ++ [c], { zi with line := zi.line ++ [st.length] })

/-- `Input.__setattr__` broadcast on the store model: every command the input
references is updated in the shared store (so the update is visible through
every other input referencing the same objects). -/
def RefInput.pySetattrRef (st : Store) (zi : RefInput) (key : String) (v : PyVal) : Store :=
  if pyStartsWithUnderscore key then st
  else
    zi.line.foldl (fun s i =>
      match s.get? i with
      | some c =>
        s.set i (match c.trySetattr key v with
          | .ok c' => c'
          | .error _ => c)
      | Option.none => s) st

/-!
Derived measures and spec-side definitions used to state the claims.
-/

/-- A group's "per-value-list length": the length of its first value list
(under the equal-length invariant every list of the group has this
length). -/
def groupHeadLen (g : Group) : Nat := ((g.map (fun e => e.2)).headD []).length

/-- The product over all groups of the per-value-list length. -/
def groupsLenProduct (pm : List Group) : Nat := (pm.map groupHeadLen).prod

/-- Minimum of a list of lengths, zero when there are none (the length of
Python's `zip` over lists of these lengths). -/
def minFoldLens : List Nat → Nat
  | [] => 0
  | n :: ns => ns.foldl Nat.min n

/-- A group's shortest value-list length (`zip` truncates to it); an empty
group zips to nothing. -/
def groupMinLen (g : Group) : Nat :=
  minFoldLens (g.map (fun e => e.2.length))

/-- Spec-side definition (§4.1, stated from the spec's words, to be compared
with the code's `pools`): the lockstep pool of a group selects, for each
position `i` below the common value-list length, the `i`-th value of every
value list of the group. -/
def specPool (g : Group) : List (List PyVal) :=
  (List.range (groupHeadLen g)).map (fun i => g.map (fun e => e.2.getD i PyVal.none))

/-- Spec-side cartesian product (§4.1): the first pool is the outer loop
(varies slowest). -/
def specOuterProd {α : Type} : List (List α) → List (List α)
  | [] => [[]]
  | p :: ps => p.flatMap (fun x => (specOuterProd ps).map (fun t => x :: t))

/-- Spec-side combinations (§4.1): zero groups yield exactly one empty
combination; otherwise each product element is flattened and zipped against
the full flattened label list into a flat mapping. -/
def specCombinations (pm : List Group) : List AdjMap :=
  if pm = [] then [[]]
  else (specOuterProd (pm.map specPool)).map
    (fun t => (ParametricMapping.labels pm).zip t.flatten)

/-- Characters of a clean identifier token: no whitespace, no quote, no
newline (so the token survives the line-oriented serialization). -/
def cleanChar (c : Char) : Bool := c.isAlphanum || c = '_' || c = '-'

/-- A clean label/name token: non-empty, made of clean characters, and not
parseable as a pint quantity (so `Command.__getattr__` returns it
verbatim). -/
def tokenOk (l : List Char) : Bool :=
  (!l.isEmpty) && l.all cleanChar && (parseQty (String.mk l)).isNone

/-- A `LABEL2` value: empty or a clean token. -/
def tokenOrEmpty (l : List Char) : Bool := l.isEmpty || tokenOk l

/-- The kinds whose serialized block is the single-keyword-line base block
and whose class name in `zgoubidoo.commands` is exactly
`KEYWORD.capitalize()` (so `Input.parse` can find the class again). -/
def goodKind : Kind → Bool
  | Kind.marker => true
  | Kind.cible => true
  | Kind.histo => true
  | Kind.image => true
  | Kind.endcmd => true
  | _ => false

/-- The observable the round-trip claim compares: keyword, both labels as
read through attribute access, and the declared parameter names. -/
def cmdView (c : Command) : String × PyVal × PyVal × List String :=
  (c.kind.keyword, c.pyGetattr "LABEL1", c.pyGetattr "LABEL2",
   c.attributes.map (fun e => e.1))

/-!
Helper notions for the `adjust` round-trip claim.
-/

/-- What `Command.__getattr__` observes given the raw stored entry. -/
def obsOfStored : Option PyVal → PyVal
  | Option.none => PyVal.none
  | some v => if v = PyVal.none then PyVal.none else convAttr (untup v)

/-- The raw `_attributes` entry behind a compound key, through the label
resolution of `Input.__getattr__` (outer `none`: the anchor label resolves to
no command). -/
def storedOf (zi : Input) (k : CKey) : Option (Option PyVal) :=
  (zi.firstWithLabel k.1).map (fun ic => alGet ic.2.attributes k.2)

/-- The value attribute access observes behind a compound key (what `adjust`
records as the prior value). -/
def priorOf (zi : Input) (k : CKey) : PyVal :=
  match zi.firstWithLabel k.1 with
  | some (_, c) => c.pyGetattr k.2
  | Option.none => PyVal.none

/-- The net effect on the sequence of one non-wildcard `adjust` entry:
set the parameter on the first command carrying the anchor label (identity
when the label resolves to no command). -/
def setKey (zi : Input) (k : CKey) (v : PyVal) : Input :=
  match zi.firstWithLabel k.1 with
  | some (i, c) =>
    { zi with line := zi.line.set i (match c.trySetattr k.2 v with
        | .ok x => x
        | .error _ => c) }
  | Option.none => zi

/-- The net effect of a whole assignment mapping. -/
def applySets (zi : Input) (l : AdjMap) : Input :=
  l.foldl (fun z kv => setKey z kv.1 kv.2) zi

/-- A stored value whose observation is stable under re-storing: not a
nested `(default, doc)` tuple (Python shows the same instability: reading a
doubly nested tuple unwraps one level per read). -/
def wfVal : PyVal → Prop
  | PyVal.tup (PyVal.tup _ _) _ => False
  | _ => True

/-- The stored entry behind a compound key is well formed (vacuously true
when the key or anchor is absent). -/
def wfStored (zi : Input) (k : CKey) : Prop :=
  match storedOf zi k with
  | some (some v) => wfVal v
  | _ => True

/-- The hypotheses under which the save/restore contract of `adjust` holds:
distinct compound keys; no `ALL_LINE` wildcard; parameter names that are not
`LABEL1` (lookup anchors would move), carry no trailing underscore (`adjust`
strips them for the read but not the write) and are not the two internal
dunder-backed names; every anchor resolves; and stored and assigned values
are not nested tuples. -/
def adjustableKeys (zi : Input) (m : AdjMap) : Prop :=
  (m.map (fun kv => kv.1)).Nodup ∧
  ∀ kv ∈ m,
    kv.1.1 ≠ "ALL_LINE" ∧
    kv.1.2 ≠ "LABEL1" ∧
    rstripUnderscores kv.1.2 = kv.1.2 ∧
    kv.1.2 ≠ "_attributes" ∧
    kv.1.2 ≠ "_output" ∧
    (zi.firstWithLabel kv.1.1).isSome = true ∧
    wfStored zi kv.1 ∧
    wfVal kv.2

/-!
Helper notions for the serialize/parse round trip.
-/

/-- Does a character list contain the two-character separator? -/
def hasNN : List Char → Bool
  | [] => false
  | [_] => false
  | c1 :: c2 :: rest => (c1 = '\n' && c2 = '\n') || hasNN (c2 :: rest)

/-- No newline at all. -/
def noNL (l : List Char) : Bool := l.all (fun c => c ≠ '\n')

/-- The base serialized segment of a command with the given keyword and
labels (the shape `Command.__str__` produces for clean token labels). -/
def segBase (kw l1 l2 : List Char) : List Char :=
  '\n' :: sp8 ++ '\'' :: kw ++ '\'' :: ' ' :: l1 ++ ' ' :: l2 ++ '\n' :: sp8

/-- The keyword line of a segment after `str.strip()`. -/
def contentStr (kw l1 l2 : List Char) : List Char :=
  '\'' :: kw ++ '\'' :: ' ' :: l1 ++ (if l2.isEmpty then [] else ' ' :: l2)

/-- The raw (unstripped) keyword line content of a triple. -/
def contentRawOf (t : List Char × List Char × List Char) : List Char :=
  '\'' :: t.1 ++ '\'' :: ' ' :: t.2.1 ++ ' ' :: t.2.2

/-- The line decomposition of the concatenated segments of a non-empty
command list, before stripping: each segment contributes an empty line, its
keyword line (eight-space indented) and hands the trailing indent to the
next segment. -/
def stageLines : List (List Char × List Char × List Char) → List (List Char)
  | [] => [[]]
  | t :: rest => [] :: (sp8 ++ contentRawOf t) :: prependHead sp8 (stageLines rest)

/-- The stripped line list contributed by the tail of a triple list. -/
def strippedTail : List (List Char × List Char × List Char) → List (List Char)
  | [] => [[]]
  | t :: rest => [] :: contentStr t.1 t.2.1 t.2.2 :: strippedTail rest

/-- The `'\n'.join` contribution of the stripped tail. -/
def joinedTail : List (List Char × List Char × List Char) → List Char
  | [] => ['\n']
  | t :: rest => '\n' :: '\n' :: contentStr t.1 t.2.1 t.2.2 ++ joinedTail rest

/-- `joinedTail` without its final newline. -/
def strippedJT : List (List Char × List Char × List Char) → List Char
  | [] => []
  | t :: rest => '\n' :: '\n' :: contentStr t.1 t.2.1 t.2.2 ++ strippedJT rest

/-- The full serialization pipeline of `Input.parse` up to the block list. -/
def pipelineBlocks (stream : List Char) : List (List Char) :=
  splitNN (stripNLs (joinNL ((splitNL stream).map stripWs)))

/-- The raw (indented, unstripped) keyword line of a triple. -/
def lineRaw (t : List Char × List Char × List Char) : List Char :=
  sp8 ++ contentRawOf t

/-- The concatenated base segments of a triple list. -/
def segsOf (ts : List (List Char × List Char × List Char)) : List Char :=
  (ts.map (fun t => segBase t.1 t.2.1 t.2.2)).flatten

/-- The stripped keyword line of a triple. -/
def contentOf (t : List Char × List Char × List Char) : List Char :=
  contentStr t.1 t.2.1 t.2.2

/-- Cleanliness of one serialized triple: the keyword and first label are
clean tokens, the second label is empty or a clean token. -/
def tripleOk (t : List Char × List Char × List Char) : Bool :=
  tokenOk t.1 && tokenOk t.2.1 && tokenOrEmpty t.2.2

/-- The character triple a (kind, label1, label2) spec serializes with. -/
def trOf (s : Kind × String × String) : List Char × List Char × List Char :=
  ((Kind.keyword s.1).data, s.2.1.data, s.2.2.data)

/-- The command a (kind, label1, label2) spec constructs. -/
def initOf (u : String) (s : Kind × String × String) : Command :=
  Command.init s.1 s.2.1 s.2.2 u []

/-- The (keyword, label1, label2) character triple a command serializes
with. -/
def tripleOf (c : Command) : List Char × List Char × List Char :=
  (c.kind.keyword.data, (c.pyGetattr "LABEL1").format, (c.pyGetattr "LABEL2").format)

/-!
Concrete instances used by the counterexamples, the code-bug evaluation and
the witnesses.
-/

/-- The mapping groups of the spec's scenario:
`[{('B1','K'): [1,2]}, {('B2','K'): [10,20,30]}]`. -/
def pmScenario : List Group :=
  [[((("B1", "K") : CKey), [PyVal.int 1, PyVal.int 2])],
   [((("B2", "K") : CKey), [PyVal.int 10, PyVal.int 20, PyVal.int 30])]]

/-- A mapping whose only group has one (empty) value list: all value lists
of the group trivially have equal length `0`. -/
def pmEmptyList : List Group := [[((("B1", "K") : CKey), ([] : List PyVal))]]

/-- A group whose two value lists have different lengths (2 and 1). -/
def pmMismatched : List Group :=
  [[((("a", "p") : CKey), [PyVal.int 1, PyVal.int 2]),
    ((("b", "q") : CKey), [PyVal.int 10])]]

/-- A marker command labelled `B1` whose parameter `K` was set to `0`. -/
def cmdB1K0 : Command :=
  { kind := Kind.marker,
    attributes := [("LABEL1", PyVal.str "B1"), ("LABEL2", PyVal.str ""), ("K", PyVal.int 0)] }

/-- The input exercising `_generate`'s restore step. -/
def ziGen : Input := { name := "beamline", line := [cmdB1K0] }

/-- Two labelled commands with distinct `K` values. -/
def ziTwo : Input :=
  { name := "bl",
    line := [{ kind := Kind.marker,
               attributes := [("LABEL1", PyVal.str "B1"), ("LABEL2", PyVal.str ""),
                              ("K", PyVal.int 1)] },
             { kind := Kind.cible,
               attributes := [("LABEL1", PyVal.str "B2"), ("LABEL2", PyVal.str ""),
                              ("K", PyVal.int 2)] }] }

/-- A marker `M1`, an `End` `E1` and an `AutoRef` `AR1` built the ordinary
way. -/
def cmdM1 : Command := Command.init Kind.marker "M1" "" "u" []

/-- The `End` command labelled `E1`. -/
def cmdE1 : Command := Command.init Kind.endcmd "E1" "" "u" []

/-- The `AutoRef` command labelled `AR1`. -/
def cmdAR1 : Command := Command.init Kind.autoref "AR1" "" "u" []

/-- A store with a single command whose `K` is `1`. -/
def stOne : Store :=
  [{ kind := Kind.marker,
     attributes := [("LABEL1", PyVal.str "C1"), ("LABEL2", PyVal.str ""),
                    ("K", PyVal.int 1)] }]

/-- The original input referencing the single stored command. -/
def refOrig : RefInput := { name := "bl", line := [0] }

/-- The copy produced by slicing `refOrig` with `[0:]`. -/
def refSlice : RefInput :=
  { name := "bl_sliced_from_0_to_None", line := [0] }

/-!
Basic lemmas about the dict embedding and attribute access.
-/

theorem alGet_alSet_self {κ V : Type} [DecidableEq κ] (d : List (κ × V)) (k : κ) (v : V) :
    alGet (alSet d k v) k = some v := by
  induction d with
  | nil => simp [alSet, alGet]
  | cons kv rest ih =>
    by_cases h : kv.1 = k
    · simp [alSet, alGet, h]
    · simpa [alSet, alGet, h] using ih

theorem alGet_alSet_ne {κ V : Type} [DecidableEq κ] (d : List (κ × V)) (k k' : κ) (v : V)
    (h : k' ≠ k) : alGet (alSet d k v) k' = alGet d k' := by
  induction d with
  | nil => simp [alSet, alGet, Ne.symm h]
  | cons kv rest ih =>
    by_cases hk : kv.1 = k
    · subst hk
      simp [alSet, alGet, Ne.symm h, h]
    · by_cases hk' : kv.1 = k'
      · simp [alSet, alGet, hk, hk', h]
      · simpa [alSet, alGet, hk, hk'] using ih

theorem alGet_eq_none_of_not_mem {κ V : Type} [DecidableEq κ] (d : List (κ × V)) (k : κ)
    (h : k ∉ d.map Prod.fst) : alGet d k = Option.none := by
  induction d with
  | nil => rfl
  | cons kv rest ih =>
    simp only [List.map_cons, List.mem_cons] at h
    push_neg at h
    simpa [alGet, Ne.symm h.1] using ih h.2

theorem pyGetattrE_eq_obs (c : Command) (a : String) :
    c.pyGetattrE a = Except.ok (obsOfStored (alGet c.attributes a)) := by
  unfold Command.pyGetattrE obsOfStored
  cases alGet c.attributes a with
  | none => rfl
  | some v =>
    by_cases h : v = PyVal.none <;> simp [h]

theorem pyGetattr_eq_obs (c : Command) (a : String) :
    c.pyGetattr a = obsOfStored (alGet c.attributes a) := by
  unfold Command.pyGetattr
  rw [pyGetattrE_eq_obs]

theorem trySetattr_general (c : Command) (a : String) (v : PyVal)
    (h1 : a ≠ "_attributes") (h2 : a ≠ "_output") :
    c.trySetattr a v = Except.ok { c with attributes := alSet c.attributes a v } := by
  simp [Command.trySetattr, h1, h2]

/-!
Claim C8 -- the first-element validator.
-/

/-- C8: the first-element validator raises exactly when the sequence is
non-empty and its first element is not an `Objet`/`MCObjet`, and accepts
(returning `True`) every empty input and every input whose first element is
of a source kind. -/
theorem claim8_first_element_validator (zi : Input) :
    ((∃ msg, validateObjetIsFirstCommand zi = Except.error msg) ↔
      (∃ c rest, zi.line = c :: rest ∧ c.kind ≠ Kind.objet ∧ c.kind ≠ Kind.mcobjet))
    ∧ (validateObjetIsFirstCommand zi = Except.ok true ↔
      (zi.line = [] ∨ ∃ c rest, zi.line = c :: rest ∧ (c.kind = Kind.objet ∨ c.kind = Kind.mcobjet))) := by
  cases hl : zi.line with
  | nil =>
    have hval : validateObjetIsFirstCommand zi = Except.ok true := by
      unfold validateObjetIsFirstCommand
      rw [hl]
    rw [hval]
    constructor
    · constructor
      · rintro ⟨msg, h⟩; cases h
      · rintro ⟨c, rest, hcr, -, -⟩
        cases hcr
    · constructor
      · intro _; exact Or.inl rfl
      · intro _; rfl
  | cons c rest =>
    have hval : validateObjetIsFirstCommand zi
        = if c.kind = Kind.objet ∨ c.kind = Kind.mcobjet then Except.ok true
          else Except.error "The first command in the input is not an Objet. (or MCObjet)." := by
      unfold validateObjetIsFirstCommand
      rw [hl]
    by_cases hk : c.kind = Kind.objet ∨ c.kind = Kind.mcobjet
    · rw [hval, if_pos hk]
      constructor
      · constructor
        · rintro ⟨msg, h⟩; cases h
        · rintro ⟨c', rest', hcr, h1, h2⟩
          injection hcr with e1 e2
          subst e1
          rcases hk with h | h
          · exact absurd h h1
          · exact absurd h h2
      · constructor
        · intro _; exact Or.inr ⟨c, rest, rfl, hk⟩
        · intro _; rfl
    · rw [hval, if_neg hk]
      push_neg at hk
      constructor
      · constructor
        · intro _; exact ⟨c, rest, rfl, hk.1, hk.2⟩
        · intro _; exact ⟨_, rfl⟩
      · constructor
        · intro h; cases h
        · rintro (h | ⟨c', rest', hcr, hsrc⟩)
          · cases h
          · injection hcr with e1 e2
            subst e1
            rcases hsrc with h | h
            · exact absurd h hk.1
            · exact absurd h hk.2

/-!
Claim C9 -- attribute access on a `Command` is total and yields `None` for
unknown or unset parameters.
-/

/-- C9: reading any attribute through the `__getattr__` fallback never
raises (every branch returns a value), and yields `None` when the name has
no entry in the parameter table, when the stored value is `None`, and in
particular for every name that is not a declared parameter of a command
built by `Command.__init__`. -/
theorem claim9_getattr_total_and_none (c : Command) (a : String) (kind : Kind)
    (l1 l2 fresh : String) (kwargs : List (String × PyVal)) :
    (∃ v, c.pyGetattrE a = Except.ok v)
    ∧ (alGet c.attributes a = Option.none → c.pyGetattrE a = Except.ok PyVal.none)
    ∧ (alGet c.attributes a = some PyVal.none → c.pyGetattrE a = Except.ok PyVal.none)
    ∧ (∀ b : String,
        b ∉ (Command.init kind l1 l2 fresh kwargs).attributes.map Prod.fst →
        (Command.init kind l1 l2 fresh kwargs).pyGetattrE b = Except.ok PyVal.none) := by
  refine ⟨⟨obsOfStored (alGet c.attributes a), pyGetattrE_eq_obs c a⟩, ?_, ?_, ?_⟩
  · intro h
    rw [pyGetattrE_eq_obs, h]
    rfl
  · intro h
    rw [pyGetattrE_eq_obs, h]
    rfl
  · intro b hb
    rw [pyGetattrE_eq_obs, alGet_eq_none_of_not_mem _ _ hb]
    rfl

/-- Witness for C9 at a concrete command: the undeclared name `FOO` on a
freshly built `Matrix` reads as `None`. -/
theorem claim9_witness :
    (Command.init Kind.matrix "MX" "" "u" []).pyGetattrE "FOO" = Except.ok PyVal.none :=
  (claim9_getattr_total_and_none (Command.init Kind.matrix "MX" "" "u" []) "FOO"
    Kind.matrix "MX" "" "u" []).2.1 (by decide)

/-!
Claim C10 -- broadcast attribute assignment on an `Input`.
-/

/-- C10: assigning a non-underscore attribute on an `Input` stores nothing on
the input object itself (name, paths and instance dict unchanged), never
raises (`Command.__setattr__` always succeeds, so the `except` branch is
dead), and broadcasts the assignment into every command's parameter
table. -/
theorem claim10_setattr_broadcast (zi : Input) (key : String) (v : PyVal)
    (h : pyStartsWithUnderscore key = false) :
    (zi.pySetattr key v).name = zi.name
    ∧ (zi.pySetattr key v).paths = zi.paths
    ∧ (zi.pySetattr key v).extraDict = zi.extraDict
    ∧ (zi.pySetattr key v).line
        = zi.line.map (fun c => { c with attributes := alSet c.attributes key v })
    ∧ (∀ c ∈ (zi.pySetattr key v).line, alGet c.attributes key = some v)
    ∧ (∀ c : Command,
        c.trySetattr key v = Except.ok { c with attributes := alSet c.attributes key v }) := by
  have h1 : key ≠ "_attributes" := by
    intro e
    rw [e] at h
    exact Bool.noConfusion ((by decide : pyStartsWithUnderscore "_attributes" = true) ▸ h)
  have h2 : key ≠ "_output" := by
    intro e
    rw [e] at h
    exact Bool.noConfusion ((by decide : pyStartsWithUnderscore "_output" = true) ▸ h)
  have hset : ∀ c : Command,
      c.trySetattr key v = Except.ok { c with attributes := alSet c.attributes key v } :=
    fun c => trySetattr_general c key v h1 h2
  have hline : (zi.pySetattr key v).line
      = zi.line.map (fun c => { c with attributes := alSet c.attributes key v }) := by
    simp only [Input.pySetattr, h, Bool.false_eq_true, if_false]
    exact List.map_congr_left (fun c _ => by rw [hset c])
  refine ⟨?_, ?_, ?_, hline, ?_, hset⟩
  · simp [Input.pySetattr, h]
  · simp [Input.pySetattr, h]
  · simp [Input.pySetattr, h]
  · intro c hc
    rw [hline] at hc
    rcases List.mem_map.mp hc with ⟨c0, -, rfl⟩
    exact alGet_alSet_self c0.attributes key v

/-- Witness for C10 at a concrete input and key. -/
theorem claim10_witness :
    pyStartsWithUnderscore "K" = false
    ∧ (ziTwo.pySetattr "K" (PyVal.int 5)).extraDict = ziTwo.extraDict
    ∧ (ziTwo.pySetattr "K" (PyVal.int 5)).name = ziTwo.name :=
  ⟨by decide,
   (claim10_setattr_broadcast ziTwo "K" (PyVal.int 5) (by decide)).2.2.1,
   (claim10_setattr_broadcast ziTwo "K" (PyVal.int 5) (by decide)).1⟩

/-!
Claim C5 -- structure of `Input.build`.
-/

/-- C5: serialization is the name header followed by each command's block in
order, with a terminal `End` block appended exactly when the last element is
not already an `End`; the empty input serializes to the header plus one
`End` block. -/
theorem claim5_build_serialization (name : String) (line : List Command) (fresh : String) :
    ((¬ ∃ c, line.getLast? = some c ∧ c.kind = Kind.endcmd) →
      Input.build name line fresh
        = name.data ++ (line.map Command.str).flatten
            ++ Command.str (Command.init Kind.endcmd "" "" fresh []))
    ∧ ((∃ c, line.getLast? = some c ∧ c.kind = Kind.endcmd) →
      Input.build name line fresh = name.data ++ (line.map Command.str).flatten)
    ∧ Input.build name [] fresh
        = name.data ++ Command.str (Command.init Kind.endcmd "" "" fresh []) := by
  refine ⟨?_, ?_, by simp [Input.build, Input.buildExtraEnd]⟩
  · intro h
    have hcond : line.length = 0 ∨ ((line.getLast?.map Command.isEnd).getD false) = false := by
      cases hg : line.getLast? with
      | none =>
        left
        cases line with
        | nil => rfl
        | cons a l => simp at hg
      | some L =>
        right
        simp only [Option.map_some', Option.getD_some]
        by_contra hb
        rw [Bool.not_eq_false] at hb
        have hk : L.kind = Kind.endcmd := by
          simpa [Command.isEnd] using hb
        exact h ⟨L, hg, hk⟩
    unfold Input.build Input.buildExtraEnd
    rw [if_pos hcond]
    simp
  · rintro ⟨c, hc, hk⟩
    have hcond : ¬ (line.length = 0 ∨ ((line.getLast?.map Command.isEnd).getD false) = false) := by
      push_neg
      constructor
      · intro hlen
        rw [List.length_eq_zero] at hlen
        subst hlen
        cases hc
      · rw [hc]
        simp [Command.isEnd, hk]
    unfold Input.build Input.buildExtraEnd
    rw [if_neg hcond]
    simp

/-- Witness for C5: an input already ending with an `End` gets no extra
block. -/
theorem claim5_witness :
    Input.build "bl" [cmdE1] "F" = "bl".data ++ ([cmdE1].map Command.str).flatten :=
  (claim5_build_serialization "bl" [cmdE1] "F").2.1 ⟨cmdE1, rfl, rfl⟩

/-!
Claim C3 -- mismatched value-list lengths: lemmas on pool and product
lengths.
-/

theorem foldl_min_min (ns : List Nat) : ∀ a b : Nat,
    ns.foldl Nat.min (Nat.min a b) = Nat.min a (ns.foldl Nat.min b) := by
  induction ns with
  | nil => intro a b; rfl
  | cons n ns ih =>
    intro a b
    show ns.foldl Nat.min (Nat.min (Nat.min a b) n) = _
    have hassoc : Nat.min (Nat.min a b) n = Nat.min a (Nat.min b n) := by
      simp only [Nat.min_def]
      split_ifs <;> omega
    rw [hassoc, ih]
    rfl

theorem zipStar_length (ls : List (List PyVal)) :
    (zipStar ls).length = minFoldLens (ls.map List.length) := by
  induction ls with
  | nil => rfl
  | cons l ls' ih =>
    cases ls' with
    | nil =>
      show (l.map (fun x => [x])).length = l.length
      exact List.length_map l _
    | cons l2 ls'' =>
      show ((l.zip (zipStar (l2 :: ls''))).map _).length = _
      rw [List.length_map, List.length_zip, ih]
      simp only [List.map_cons, minFoldLens, List.foldl_cons]
      exact (foldl_min_min (ls''.map List.length) l.length l2.length).symm

theorem zipStar_group_length (g : Group) :
    (zipStar (g.map (fun e => e.2))).length = groupMinLen g := by
  rw [zipStar_length]
  unfold groupMinLen
  rw [List.map_map]
  rfl

theorem sum_map_constN {α : Type} (p : List α) (c : Nat) :
    (p.map (fun _ => c)).sum = p.length * c := by
  induction p with
  | nil => simp
  | cons a p ih => simp [ih, Nat.succ_mul, Nat.add_comm]

theorem itertoolsProduct_length {α : Type} (ps : List (List α)) :
    (itertoolsProduct ps).length = (ps.map List.length).prod := by
  induction ps with
  | nil => rfl
  | cons p ps ih =>
    show (p.flatMap (fun x => (itertoolsProduct ps).map (fun t => x :: t))).length = _
    rw [List.length_flatMap]
    have hconst : (p.map (fun x => ((itertoolsProduct ps).map (fun t => x :: t)).length))
        = p.map (fun _ => (ps.map List.length).prod) := by
      apply List.map_congr_left
      intro x _
      rw [List.length_map, ih]
    calc (p.map (fun x => ((itertoolsProduct ps).map (fun t => x :: t)).length)).sum
        = (p.map (fun _ => (ps.map List.length).prod)).sum := by rw [hconst]
      _ = p.length * (ps.map List.length).prod := sum_map_constN p _
      _ = ((p :: ps).map List.length).prod := by simp

theorem combinations_length (pm : List Group) :
    (ParametricMapping.combinations pm).length
      = Nat.max 1 ((pm.map groupMinLen).prod) := by
  have hlen : (((itertoolsProduct (ParametricMapping.pools pm)).map List.flatten).map
      (fun v => dictOfPairs ((ParametricMapping.labels pm).zip v))).length
      = (pm.map groupMinLen).prod := by
    rw [List.length_map, List.length_map, itertoolsProduct_length]
    unfold ParametricMapping.pools
    rw [List.map_map]
    congr 1
    exact List.map_congr_left (fun g _ => zipStar_group_length g)
  simp only [ParametricMapping.combinations]
  by_cases hE : (((itertoolsProduct (ParametricMapping.pools pm)).map List.flatten).map
      (fun v => dictOfPairs ((ParametricMapping.labels pm).zip v))).isEmpty
  · rw [if_pos hE]
    rw [List.isEmpty_iff] at hE
    have h0 : (pm.map groupMinLen).prod = 0 := by
      rw [← hlen, hE]
      rfl
    simp [h0]
  · rw [if_neg hE]
    rw [hlen]
    have hne : (pm.map groupMinLen).prod ≠ 0 := by
      intro h0
      apply hE
      rw [List.isEmpty_iff, ← List.length_eq_zero, hlen]
      exact h0
    exact (Nat.max_eq_right (Nat.one_le_iff_ne_zero.mpr hne)).symm

/-- C3 (amended): mismatched value-list lengths are not detected -- each
group's pool is the lockstep zip truncated to the group's shortest value
list, and the combinations are built from the truncated pools, one (empty)
combination remaining when the truncated product is empty. -/
theorem claim3_silent_truncation (pm : List Group) :
    (∀ g ∈ pm, (zipStar (g.map (fun e => e.2))).length = groupMinLen g)
    ∧ (ParametricMapping.combinations pm).length = Nat.max 1 ((pm.map groupMinLen).prod) :=
  ⟨fun g _ => zipStar_group_length g, combinations_length pm⟩

/-- Witness for C3 (amended) at the concrete mismatched mapping. -/
theorem claim3_witness :
    (ParametricMapping.combinations pmMismatched).length
      = Nat.max 1 ((pmMismatched.map groupMinLen).prod) :=
  (claim3_silent_truncation pmMismatched).2

/-- Counterexample to C3 as stated: a group whose value lists have lengths 2
and 1 raises no configuration error -- `combinations` silently returns the
truncated cross product. -/
theorem claim3_counterexample_no_error :
    ((pmMismatched.headD []).map (fun e => e.2.length) = [2, 1])
    ∧ ParametricMapping.combinations pmMismatched
        = [[((("a", "p") : CKey), PyVal.int 1), ((("b", "q") : CKey), PyVal.int 10)]] := by
  decide

/-!
Claim C2 -- `_generate` does not restore the pre-adjustment state
(`initial_state` starts as `{}`, so `initial_state is None` never fires and
the final `self.adjust(initial_state)` adjusts nothing).
-/

/-- C2 (code bug): after materializing the mapping `{('B1','K'): 42}` on an
input whose `B1.K` was `0`, the command is left with `K = 42`; the final
restore call adjusts nothing because `initial_state` is still the empty
dict. -/
theorem claim2_generate_restore_bug :
    ((ziGen.generate [[((("B1", "K") : CKey), PyVal.int 42)]] ["dir0"] "f0").toOption.map
        (fun r => (r.1.firstWithLabel "B1").map (fun ic => ic.2.pyGetattr "K")))
      = some (some (PyVal.int 42))
    ∧ (ziGen.firstWithLabel "B1").map (fun ic => ic.2.pyGetattr "K") = some (PyVal.int 0) := by
  decide

/-!
Closed counterexamples for C1, C4, C6 and C7.
-/

/-- Counterexample to C1 as stated: a group whose single value list is empty
has (vacuously) equal-length value lists, yet `combinations` is the one
empty combination (the `or [{}]` fallback), not the empty cartesian product,
so its length is not the product of the per-value-list lengths. -/
theorem claim1_counterexample_empty_pool :
    (∀ g ∈ pmEmptyList, ∀ e ∈ g, e.2.length = groupHeadLen g)
    ∧ ParametricMapping.combinations pmEmptyList = [[]]
    ∧ groupsLenProduct pmEmptyList = 0
    ∧ (ParametricMapping.combinations pmEmptyList).length ≠ groupsLenProduct pmEmptyList := by
  decide

/-- Counterexample to C4 as stated: for the wildcard anchor `ALL_LINE` the
returned prior-value map records `None`, and re-adjusting with it sets every
command's parameter to `None` instead of restoring the values (here `B1.K`
was `1` and ends up `None`). -/
theorem claim4_counterexample_wildcard :
    ((ziTwo.adjust [((("ALL_LINE", "K") : CKey), PyVal.int 9)]).toOption.map
        (fun r1 => r1.2))
      = some [((("ALL_LINE", "K") : CKey), PyVal.none)]
    ∧ ((ziTwo.adjust [((("ALL_LINE", "K") : CKey), PyVal.int 9)]).toOption.bind
        (fun r1 => (r1.1.adjust r1.2).toOption.map (fun r2 => priorOf r2.1 ("B1", "K"))))
      = some PyVal.none
    ∧ priorOf ziTwo ("B1", "K") = PyVal.int 1 := by
  decide

/-- Counterexample to C6 as stated: serializing `[AutoRef, End]` and parsing
the result raises (`'AUTOREF'.capitalize()` is `Autoref`, which is not bound
in `zgoubidoo.commands`); and serializing `[Marker]` followed by parsing
yields the keyword sequence `[MARKER, END]` -- the implicitly appended `End`
block -- not the original `[MARKER]`. -/
theorem claim6_counterexample :
    Input.parse (Input.build "beamline" [cmdAR1, cmdE1] "F") = Except.error "AttributeError"
    ∧ ((Input.parse (Input.build "beamline" [cmdM1] "FRESHL")).toOption.map
        (fun zi => zi.line.map (fun c => c.kind.keyword)))
      = some ["MARKER", "END"]
    ∧ [cmdM1].map (fun c => c.kind.keyword) = ["MARKER"] := by
  decide

/-- Counterexample to C7 as stated: slicing returns a new `Input`, but the
command objects are shared -- broadcasting `K = 9` through the returned copy
changes what the original resolves (its command's `K` goes from `1` to
`9`). -/
theorem claim7_counterexample_alias :
    RefInput.getitemSlice stOne refOrig (SliceArg.num 0) SliceArg.noneA
      = Except.ok (stOne, refSlice)
    ∧ (refOrig.resolve (RefInput.pySetattrRef stOne refSlice "K" (PyVal.int 9))).map
        (fun oc => oc.map (fun c => c.pyGetattr "K"))
      = [some (PyVal.int 9)]
    ∧ (refOrig.resolve stOne).map (fun oc => oc.map (fun c => c.pyGetattr "K"))
      = [some (PyVal.int 1)] := by
  decide

/-!
Claim C7 (amended) -- slicing/filtering never mutate the original and the
returned reference list is a fresh copy.
-/

/-- C7 (amended): `__getitem__` with a slice or selectors returns the store
unchanged (no command object is modified or copied) together with a new
`Input` over a fresh reference list, so structural mutation of the copy
(appending a command) leaves the original's resolved command sequence
unchanged; slicing with integer bounds is exactly `islice` on the reference
list.  The command objects themselves stay shared (see the
counterexample). -/
theorem claim7_copy_amended (st : Store) (zi : RefInput) (a b : SliceArg)
    (items : List Selector) (c : Command)
    (hwf : ∀ i ∈ zi.line, i < st.length) :
    (∀ st' copy, RefInput.getitemSlice st zi a b = Except.ok (st', copy) →
        st' = st
        ∧ (∀ st2 copy2, RefInput.iadd st' copy c = (st2, copy2) →
            zi.resolve st2 = zi.resolve st))
    ∧ (RefInput.getitemFilter st zi items).1 = st
    ∧ (∀ s e : Nat, RefInput.getitemSlice st zi (SliceArg.num s) (SliceArg.num e)
        = Except.ok (st, RefInput.mk
            (String.mk (zi.name.data ++ "_sliced_from_".data ++ (toString s).data
              ++ "_to_".data ++ (toString e).data))
            (isliceIds zi.line (some s) (some e)))) := by
  have happend : ∀ st' : Store, st' = st →
      zi.resolve (st' ++ [c]) = zi.resolve st := by
    intro st' hst
    subst hst
    unfold RefInput.resolve
    apply List.map_congr_left
    intro i hi
    exact List.get?_append (hwf i hi)
  refine ⟨?_, rfl, ?_⟩
  · intro st' copy hok
    unfold RefInput.getitemSlice at hok
    have hst : st' = st := by
      cases hs : resolveStart st zi a with
      | error e => rw [hs] at hok; cases hok
      | ok s =>
        cases he : resolveStop st zi b with
        | error e => rw [hs, he] at hok; cases hok
        | ok e =>
          rw [hs, he] at hok
          injection hok with h1
          injection h1 with h2 h3
          exact h2.symm
    refine ⟨hst, ?_⟩
    intro st2 copy2 hi
    unfold RefInput.iadd at hi
    injection hi with h1 h2
    rw [← h1]
    exact happend st' hst
  · intro s e
    rfl

/-- Witness for C7 (amended) at a concrete store and input. -/
theorem claim7_witness :
    (RefInput.getitemFilter stOne refOrig []).1 = stOne :=
  (claim7_copy_amended stOne refOrig (SliceArg.num 0) SliceArg.noneA [] cmdM1
    (by decide)).2.1

/-!
Claim C1 -- the refinement of `combinations` against the spec's cartesian
product, under the (amended) hypotheses.
-/

theorem range_getD {α : Type} (l : List α) (d : α) :
    (List.range l.length).map (fun i => l.getD i d) = l := by
  induction l using List.reverseRecOn with
  | nil => rfl
  | append_singleton l a ih =>
    rw [List.length_append, List.length_singleton, List.range_succ, List.map_append]
    have hfront : (List.range l.length).map (fun i => (l ++ [a]).getD i d)
        = (List.range l.length).map (fun i => l.getD i d) := by
      apply List.map_congr_left
      intro i hi
      rw [List.mem_range] at hi
      exact List.getD_append l [a] d i hi
    rw [hfront, ih]
    have hback : (l ++ [a]).getD l.length d = a := by
      rw [List.getD_append_right l [a] d l.length (Nat.le_refl _)]
      simp
    simp [hback]

theorem foldl_min_const (n : Nat) : ∀ ms : List Nat,
    (∀ x ∈ ms, x = n) → ms.foldl Nat.min n = n := by
  intro ms
  induction ms with
  | nil => intro _; rfl
  | cons x ms ih =>
    intro h
    have hx : x = n := h x (by simp)
    subst hx
    show List.foldl Nat.min (Nat.min x x) ms = x
    rw [show Nat.min x x = x from by simp [Nat.min_def]]
    exact ih (fun y hy => h y (by simp [hy]))

theorem minFoldLens_const (ls : List Nat) (n : Nat) (hne : ls ≠ [])
    (h : ∀ x ∈ ls, x = n) : minFoldLens ls = n := by
  cases ls with
  | nil => cases hne rfl
  | cons m ms =>
    have hm : m = n := h m (by simp)
    subst hm
    exact foldl_min_const m ms (fun y hy => h y (by simp [hy]))

theorem zip_range_getD {α β : Type} (l : List α) (d : α) (g : Nat → β) :
    l.zip ((List.range l.length).map g)
      = (List.range l.length).map (fun i => (l.getD i d, g i)) := by
  conv_lhs =>
    arg 1
    rw [← range_getD l d]
  rw [List.zip_map']

theorem zipStar_const_len (n : Nat) : ∀ ls : List (List PyVal), ls ≠ [] →
    (∀ l ∈ ls, l.length = n) →
    zipStar ls = (List.range n).map (fun i => ls.map (fun l => l.getD i PyVal.none)) := by
  intro ls
  induction ls with
  | nil => intro h; cases h rfl
  | cons l ls' ih =>
    intro _ h
    cases ls' with
    | nil =>
      have hl : l.length = n := h l (by simp)
      subst hl
      show l.map (fun x => [x]) = _
      simp only [List.map_cons, List.map_nil]
      calc l.map (fun x => [x])
          = ((List.range l.length).map (fun i => l.getD i PyVal.none)).map (fun x => [x]) := by
            conv_lhs =>
              arg 2
              rw [← range_getD l PyVal.none]
        _ = (List.range l.length).map (fun i => [l.getD i PyVal.none]) := by
            rw [List.map_map]
            rfl
    | cons l2 ls'' =>
      have hl : l.length = n := h l (by simp)
      subst hl
      have hZ := ih (by simp) (fun x hx => h x (by simp [hx]))
      show (l.zip (zipStar (l2 :: ls''))).map (fun p => p.1 :: p.2) = _
      rw [hZ, zip_range_getD l PyVal.none, List.map_map]
      apply List.map_congr_left
      intro i _
      simp

theorem specPool_length (g : Group) : (specPool g).length = groupHeadLen g := by
  unfold specPool
  rw [List.length_map, List.length_range]

theorem pools_eq_spec (pm : List Group) (hne : ∀ g ∈ pm, g ≠ [])
    (hlen : ∀ g ∈ pm, ∀ e ∈ g, e.2.length = groupHeadLen g) :
    ParametricMapping.pools pm = pm.map specPool := by
  unfold ParametricMapping.pools
  apply List.map_congr_left
  intro g hg
  have hgne : g.map (fun e => e.2) ≠ [] := by
    intro hmap
    exact hne g hg (List.map_eq_nil.mp hmap)
  rw [zipStar_const_len (groupHeadLen g) (g.map (fun e => e.2)) hgne ?hlens]
  case hlens =>
    intro l hl
    rcases List.mem_map.mp hl with ⟨e, he, rfl⟩
    exact hlen g hg e he
  unfold specPool
  apply List.map_congr_left
  intro i _
  rw [List.map_map]
  rfl

theorem itertools_eq_spec {α : Type} : ∀ ps : List (List α),
    itertoolsProduct ps = specOuterProd ps := by
  intro ps
  induction ps with
  | nil => rfl
  | cons p ps ih =>
    show p.flatMap _ = p.flatMap _
    rw [ih]

theorem zip_fst_sublist {α β : Type} : ∀ (l1 : List α) (l2 : List β),
    ((l1.zip l2).map Prod.fst).Sublist l1 := by
  intro l1
  induction l1 with
  | nil => intro l2; simp
  | cons a l1 ih =>
    intro l2
    cases l2 with
    | nil => simp
    | cons b l2 =>
      show (((a, b) :: l1.zip l2).map Prod.fst).Sublist (a :: l1)
      simp only [List.map_cons]
      exact List.Sublist.cons₂ a (ih l2)

theorem alSet_append_of_not_mem {κ V : Type} [DecidableEq κ] (acc : List (κ × V)) (k : κ) (v : V)
    (h : k ∉ acc.map Prod.fst) : alSet acc k v = acc ++ [(k, v)] := by
  induction acc with
  | nil => rfl
  | cons kv rest ih =>
    simp only [List.map_cons, List.mem_cons] at h
    push_neg at h
    obtain ⟨k', v'⟩ := kv
    show alSet ((k', v') :: rest) k v = _
    unfold alSet
    rw [if_neg (Ne.symm h.1)]
    rw [ih h.2]
    simp

theorem dictUpdate_append_of_disjoint {κ V : Type} [DecidableEq κ] :
    ∀ (l acc : List (κ × V)), (∀ k ∈ l.map Prod.fst, k ∉ acc.map Prod.fst) →
    (l.map Prod.fst).Nodup → dictUpdate acc l = acc ++ l := by
  intro l
  induction l with
  | nil => intro acc _ _; simp [dictUpdate]
  | cons kv rest ih =>
    intro acc hdisj hnd
    have hhead : kv.1 ∉ rest.map Prod.fst := by
      rw [List.map_cons, List.nodup_cons] at hnd
      exact hnd.1
    have hndrest : (rest.map Prod.fst).Nodup := by
      rw [List.map_cons, List.nodup_cons] at hnd
      exact hnd.2
    have step : dictUpdate acc (kv :: rest) = dictUpdate (alSet acc kv.1 kv.2) rest := rfl
    rw [step, alSet_append_of_not_mem acc kv.1 kv.2 (hdisj kv.1 (by simp))]
    rw [ih (acc ++ [(kv.1, kv.2)]) ?disj hndrest]
    · simp
    case disj =>
      intro k hk
      rw [List.map_append, List.mem_append]
      push_neg
      constructor
      · exact hdisj k (by simp [hk])
      · intro hm
        simp only [List.map_cons, List.map_nil, List.mem_singleton] at hm
        subst hm
        exact hhead hk

theorem dictOfPairs_eq_self {κ V : Type} [DecidableEq κ] (l : List (κ × V))
    (hnd : (l.map Prod.fst).Nodup) : dictOfPairs l = l := by
  unfold dictOfPairs
  rw [dictUpdate_append_of_disjoint l [] (by simp) hnd]
  simp

theorem groupMinLen_eq_head (g : Group) (hne : g ≠ [])
    (hlen : ∀ e ∈ g, e.2.length = groupHeadLen g) :
    groupMinLen g = groupHeadLen g := by
  unfold groupMinLen
  apply minFoldLens_const
  · intro hmap
    exact hne (List.map_eq_nil.mp hmap)
  · intro x hx
    rcases List.mem_map.mp hx with ⟨e, he, rfl⟩
    exact hlen e he

theorem natListProd_pos (l : List Nat) (h : ∀ x ∈ l, 1 ≤ x) : 1 ≤ l.prod := by
  induction l with
  | nil => simp
  | cons x l ih =>
    rw [List.prod_cons]
    exact Nat.mul_le_mul (h x (by simp)) (ih (fun y hy => h y (by simp [hy])))

theorem combinations_eq_spec (pm : List Group)
    (hne : ∀ g ∈ pm, g ≠ [])
    (hlen : ∀ g ∈ pm, ∀ e ∈ g, e.2.length = groupHeadLen g)
    (hpos : ∀ g ∈ pm, 1 ≤ groupHeadLen g)
    (hnd : (ParametricMapping.labels pm).Nodup) :
    ParametricMapping.combinations pm = specCombinations pm := by
  by_cases hpm : pm = []
  · subst hpm
    rfl
  · simp only [ParametricMapping.combinations, specCombinations, if_neg hpm]
    rw [pools_eq_spec pm hne hlen, itertools_eq_spec]
    have hmap : ((specOuterProd (pm.map specPool)).map List.flatten).map
        (fun v => dictOfPairs ((ParametricMapping.labels pm).zip v))
        = (specOuterProd (pm.map specPool)).map
            (fun t => (ParametricMapping.labels pm).zip t.flatten) := by
      rw [List.map_map]
      apply List.map_congr_left
      intro t _
      show dictOfPairs ((ParametricMapping.labels pm).zip t.flatten) = _
      apply dictOfPairs_eq_self
      exact List.Nodup.sublist (zip_fst_sublist _ _) hnd
    rw [hmap]
    have hlenprod : ((specOuterProd (pm.map specPool)).map
        (fun t => (ParametricMapping.labels pm).zip t.flatten)).length
        = (pm.map groupHeadLen).prod := by
      rw [List.length_map, ← itertools_eq_spec, itertoolsProduct_length, List.map_map]
      congr 1
      apply List.map_congr_left
      intro g _
      exact specPool_length g
    have hne' : ¬ ((specOuterProd (pm.map specPool)).map
        (fun t => (ParametricMapping.labels pm).zip t.flatten)).isEmpty = true := by
      rw [List.isEmpty_iff]
      intro hnil
      have h0 := congrArg List.length hnil
      rw [hlenprod] at h0
      simp only [List.length_nil] at h0
      have h1 : 1 ≤ (pm.map groupHeadLen).prod := by
        apply natListProd_pos
        intro x hx
        rcases List.mem_map.mp hx with ⟨g, hg, rfl⟩
        exact hpos g hg
      omega
    rw [if_neg hne']

/-- C1 (amended): for groups that are non-empty, with equal-length and
non-empty value lists, and pairwise distinct compound keys, `combinations`
is exactly the spec's cartesian product of the lockstep pools (first group
outermost, hence slowest varying), its length is the product of the
per-value-list lengths, zero groups give one empty combination, and the
spec's concrete scenario produces its six combinations in order. -/
theorem claim1_combinations_amended (pm : List Group)
    (hne : ∀ g ∈ pm, g ≠ [])
    (hlen : ∀ g ∈ pm, ∀ e ∈ g, e.2.length = groupHeadLen g)
    (hpos : ∀ g ∈ pm, 1 ≤ groupHeadLen g)
    (hnd : (ParametricMapping.labels pm).Nodup) :
    ParametricMapping.combinations pm = specCombinations pm
    ∧ (ParametricMapping.combinations pm).length = groupsLenProduct pm
    ∧ ParametricMapping.combinations ([] : List Group) = [[]]
    ∧ ParametricMapping.combinations pmScenario
        = [[((("B1", "K") : CKey), PyVal.int 1), ((("B2", "K") : CKey), PyVal.int 10)],
           [((("B1", "K") : CKey), PyVal.int 1), ((("B2", "K") : CKey), PyVal.int 20)],
           [((("B1", "K") : CKey), PyVal.int 1), ((("B2", "K") : CKey), PyVal.int 30)],
           [((("B1", "K") : CKey), PyVal.int 2), ((("B2", "K") : CKey), PyVal.int 10)],
           [((("B1", "K") : CKey), PyVal.int 2), ((("B2", "K") : CKey), PyVal.int 20)],
           [((("B1", "K") : CKey), PyVal.int 2), ((("B2", "K") : CKey), PyVal.int 30)]] := by
  refine ⟨combinations_eq_spec pm hne hlen hpos hnd, ?_, by decide, by decide⟩
  rw [combinations_length pm]
  have hmins : pm.map groupMinLen = pm.map groupHeadLen := by
    apply List.map_congr_left
    intro g hg
    exact groupMinLen_eq_head g (hne g hg) (hlen g hg)
  rw [hmins]
  unfold groupsLenProduct
  apply Nat.max_eq_right
  apply natListProd_pos
  intro x hx
  rcases List.mem_map.mp hx with ⟨g, hg, rfl⟩
  exact hpos g hg

/-- Witness for C1 (amended) at the spec's scenario mapping. -/
theorem claim1_witness :
    ParametricMapping.combinations pmScenario = specCombinations pmScenario
    ∧ (ParametricMapping.combinations pmScenario).length = groupsLenProduct pmScenario :=
  ⟨(claim1_combinations_amended pmScenario (by decide) (by decide) (by decide) (by decide)).1,
   (claim1_combinations_amended pmScenario (by decide) (by decide) (by decide) (by decide)).2.1⟩

/-!
Claim C4 -- the save/restore contract of `adjust`: supporting lemmas.
-/

theorem firstWithLabel_spec (lbl : String) :
    ∀ (l : List Command) (n i : Nat) (c : Command),
    findLabelAux lbl n l = some (i, c) →
    n ≤ i ∧ l.get? (i - n) = some c ∧ c.pyGetattr "LABEL1" = PyVal.str lbl := by
  intro l
  induction l with
  | nil => intro n i c h; cases h
  | cons c0 rest ih =>
    intro n i c h
    unfold findLabelAux at h
    by_cases hm : c0.pyGetattr "LABEL1" = PyVal.str lbl
    · rw [if_pos hm] at h
      injection h with h'
      injection h' with e1 e2
      subst e1
      subst e2
      refine ⟨Nat.le_refl _, ?_, hm⟩
      simp
    · rw [if_neg hm] at h
      obtain ⟨hle, hget, hlbl⟩ := ih (n + 1) i c h
      refine ⟨Nat.le_of_succ_le hle, ?_, hlbl⟩
      have hidx : i - n = (i - (n + 1)) + 1 := by omega
      rw [hidx]
      simpa using hget

theorem findLabelAux_ge (lbl : String) (l : List Command) (n i : Nat) (c : Command)
    (h : findLabelAux lbl n l = some (i, c)) : n ≤ i :=
  (firstWithLabel_spec lbl l n i c h).1

theorem findLabelAux_set (lbl : String) (c' : Command) :
    ∀ (l : List Command) (i n : Nat) (c : Command),
    l.get? i = some c →
    c'.pyGetattr "LABEL1" = c.pyGetattr "LABEL1" →
    findLabelAux lbl n (l.set i c')
      = (findLabelAux lbl n l).map (fun jc => if jc.1 = n + i then (jc.1, c') else jc) := by
  intro l
  induction l with
  | nil => intro i n c h; cases h
  | cons c0 rest ih =>
    intro i n c hget hlbl
    cases i with
    | zero =>
      have hc : c0 = c := by simpa using hget
      subst hc
      show findLabelAux lbl n (c' :: rest) = _
      unfold findLabelAux
      by_cases hm : c0.pyGetattr "LABEL1" = PyVal.str lbl
      · rw [if_pos (by rw [hlbl]; exact hm), if_pos hm]
        simp
      · rw [if_neg (by rw [hlbl]; exact hm), if_neg hm]
        cases hres : findLabelAux lbl (n + 1) rest with
        | none => rfl
        | some jc =>
          obtain ⟨j, cj⟩ := jc
          have hge : n + 1 ≤ j := findLabelAux_ge lbl rest (n + 1) j cj hres
          simp only [Option.map_some']
          rw [if_neg (by omega)]
    | succ i' =>
      have hget' : rest.get? i' = some c := by simpa using hget
      show findLabelAux lbl n (c0 :: rest.set i' c') = _
      unfold findLabelAux
      by_cases hm : c0.pyGetattr "LABEL1" = PyVal.str lbl
      · rw [if_pos hm, if_pos hm]
        simp only [Option.map_some']
        rw [if_neg (by omega)]
      · rw [if_neg hm, if_neg hm]
        rw [ih i' (n + 1) c hget' hlbl]
        have hfun : (fun jc : Nat × Command => if jc.1 = n + 1 + i' then (jc.1, c') else jc)
            = (fun jc : Nat × Command => if jc.1 = n + (i' + 1) then (jc.1, c') else jc) := by
          funext jc
          have harith : n + 1 + i' = n + (i' + 1) := by omega
          rw [harith]
        rw [hfun]

theorem setKey_line (zi : Input) (k : CKey) (v : PyVal)
    (h2 : k.2 ≠ "_attributes") (h3 : k.2 ≠ "_output")
    (i : Nat) (c : Command) (h : zi.firstWithLabel k.1 = some (i, c)) :
    setKey zi k v
      = { zi with line := zi.line.set i ({ c with attributes := alSet c.attributes k.2 v }) } := by
  unfold setKey
  rw [h]
  simp only [trySetattr_general c k.2 v h2 h3]

theorem firstWithLabel_setKey (zi : Input) (k : CKey) (v : PyVal)
    (h1 : k.2 ≠ "LABEL1") (h2 : k.2 ≠ "_attributes") (h3 : k.2 ≠ "_output") (a : String) :
    (setKey zi k v).firstWithLabel a
      = match zi.firstWithLabel k.1 with
        | Option.none => zi.firstWithLabel a
        | some ic => (zi.firstWithLabel a).map
            (fun jc => if jc.1 = ic.1 then
              (jc.1, { ic.2 with attributes := alSet ic.2.attributes k.2 v }) else jc) := by
  cases h : zi.firstWithLabel k.1 with
  | none =>
    unfold setKey
    rw [h]
  | some ic =>
    obtain ⟨i, c⟩ := ic
    have hspec := firstWithLabel_spec k.1 zi.line 0 i c h
    obtain ⟨-, hget, -⟩ := hspec
    rw [setKey_line zi k v h2 h3 i c h]
    show findLabelAux a 0 (zi.line.set i _) = _
    rw [findLabelAux_set a _ zi.line i 0 c (by simpa using hget) ?hlbl]
    case hlbl =>
      rw [pyGetattr_eq_obs, pyGetattr_eq_obs]
      show obsOfStored (alGet (alSet c.attributes k.2 v) "LABEL1") = _
      rw [alGet_alSet_ne c.attributes k.2 "LABEL1" v (Ne.symm h1)]
    simp only [Nat.zero_add]
    rfl

theorem storedOf_setKey_ne (zi : Input) (k k' : CKey) (v : PyVal)
    (h1 : k.2 ≠ "LABEL1") (h2 : k.2 ≠ "_attributes") (h3 : k.2 ≠ "_output")
    (hkk : k' ≠ k) :
    storedOf (setKey zi k v) k' = storedOf zi k' := by
  unfold storedOf
  rw [firstWithLabel_setKey zi k v h1 h2 h3 k'.1]
  cases h : zi.firstWithLabel k.1 with
  | none => rfl
  | some ic =>
    obtain ⟨i, c⟩ := ic
    cases h' : zi.firstWithLabel k'.1 with
    | none => rfl
    | some jc =>
      obtain ⟨j, cj⟩ := jc
      simp only [Option.map_some']
      by_cases hij : j = i
      · subst hij
        rw [if_pos rfl]
        obtain ⟨-, hget1, hl1⟩ := firstWithLabel_spec k.1 zi.line 0 j c h
        obtain ⟨-, hget2, hl2⟩ := firstWithLabel_spec k'.1 zi.line 0 j cj h'
        rw [Nat.sub_zero] at hget1 hget2
        have hcc : c = cj := by
          rw [hget1] at hget2
          injection hget2
        subst hcc
        have hanch : k'.1 = k.1 := by
          rw [hl1] at hl2
          injection hl2 with e
          exact e.symm
        have hp2 : k'.2 ≠ k.2 := by
          intro hp
          apply hkk
          exact Prod.ext hanch hp
        simp only [Option.map_some']
        rw [alGet_alSet_ne c.attributes k.2 k'.2 v hp2]
      · rw [if_neg hij]

theorem storedOf_setKey_self (zi : Input) (k : CKey) (v : PyVal)
    (h1 : k.2 ≠ "LABEL1") (h2 : k.2 ≠ "_attributes") (h3 : k.2 ≠ "_output")
    (hpres : (zi.firstWithLabel k.1).isSome = true) :
    storedOf (setKey zi k v) k = some (some v) := by
  obtain ⟨ic, h⟩ := Option.isSome_iff_exists.mp hpres
  obtain ⟨i, c⟩ := ic
  unfold storedOf
  rw [firstWithLabel_setKey zi k v h1 h2 h3 k.1, h]
  simp [alGet_alSet_self]

theorem priorOf_of_stored_some (zi : Input) (k : CKey) (s : Option PyVal)
    (h : storedOf zi k = some s) : priorOf zi k = obsOfStored s := by
  unfold storedOf at h
  unfold priorOf
  cases hf : zi.firstWithLabel k.1 with
  | none => rw [hf] at h; cases h
  | some ic =>
    obtain ⟨i, c⟩ := ic
    rw [hf] at h
    simp only [Option.map_some'] at h
    injection h with h'
    rw [← h']
    exact pyGetattr_eq_obs c k.2

theorem priorOf_of_stored_none (zi : Input) (k : CKey)
    (h : storedOf zi k = Option.none) : priorOf zi k = PyVal.none := by
  unfold storedOf at h
  unfold priorOf
  cases hf : zi.firstWithLabel k.1 with
  | none => rfl
  | some ic => rw [hf] at h; cases h

theorem priorOf_setKey_ne (zi : Input) (k k' : CKey) (v : PyVal)
    (h1 : k.2 ≠ "LABEL1") (h2 : k.2 ≠ "_attributes") (h3 : k.2 ≠ "_output")
    (hkk : k' ≠ k) :
    priorOf (setKey zi k v) k' = priorOf zi k' := by
  have hfr := storedOf_setKey_ne zi k k' v h1 h2 h3 hkk
  cases hs : storedOf zi k' with
  | none => rw [priorOf_of_stored_none _ _ (hfr.trans hs), priorOf_of_stored_none _ _ hs]
  | some s => rw [priorOf_of_stored_some _ _ s (hfr.trans hs), priorOf_of_stored_some _ _ s hs]

theorem firstWithLabel_isSome_setKey (zi : Input) (k : CKey) (v : PyVal)
    (h1 : k.2 ≠ "LABEL1") (h2 : k.2 ≠ "_attributes") (h3 : k.2 ≠ "_output") (a : String) :
    ((setKey zi k v).firstWithLabel a).isSome = (zi.firstWithLabel a).isSome := by
  rw [firstWithLabel_setKey zi k v h1 h2 h3 a]
  cases zi.firstWithLabel k.1 with
  | none => rfl
  | some ic => simp

theorem storedOf_applySets_ne (l : AdjMap) : ∀ (zi : Input) (k' : CKey),
    (∀ kv ∈ l, kv.1 ≠ k' ∧ kv.1.2 ≠ "LABEL1" ∧ kv.1.2 ≠ "_attributes" ∧ kv.1.2 ≠ "_output") →
    storedOf (applySets zi l) k' = storedOf zi k' := by
  induction l with
  | nil => intro zi k' _; rfl
  | cons kv rest ih =>
    intro zi k' h
    obtain ⟨hne, h1, h2, h3⟩ := h kv (by simp)
    show storedOf (applySets (setKey zi kv.1 kv.2) rest) k' = _
    rw [ih (setKey zi kv.1 kv.2) k' (fun kv' hkv' => h kv' (by simp [hkv']))]
    exact storedOf_setKey_ne zi kv.1 k' kv.2 h1 h2 h3 (Ne.symm hne)

theorem firstWithLabel_isSome_applySets (l : AdjMap) : ∀ (zi : Input) (a : String),
    (∀ kv ∈ l, kv.1.2 ≠ "LABEL1" ∧ kv.1.2 ≠ "_attributes" ∧ kv.1.2 ≠ "_output") →
    ((applySets zi l).firstWithLabel a).isSome = (zi.firstWithLabel a).isSome := by
  induction l with
  | nil => intro zi a _; rfl
  | cons kv rest ih =>
    intro zi a h
    obtain ⟨h1, h2, h3⟩ := h kv (by simp)
    show ((applySets (setKey zi kv.1 kv.2) rest).firstWithLabel a).isSome = _
    rw [ih (setKey zi kv.1 kv.2) a (fun kv' hkv' => h kv' (by simp [hkv']))]
    exact firstWithLabel_isSome_setKey zi kv.1 kv.2 h1 h2 h3 a

theorem storedOf_applySets_mem (l : AdjMap) : ∀ (zi : Input) (k : CKey) (v : PyVal),
    (k, v) ∈ l →
    (l.map Prod.fst).Nodup →
    (∀ kv ∈ l, kv.1.2 ≠ "LABEL1" ∧ kv.1.2 ≠ "_attributes" ∧ kv.1.2 ≠ "_output"
      ∧ (zi.firstWithLabel kv.1.1).isSome = true) →
    storedOf (applySets zi l) k = some (some v) := by
  induction l with
  | nil => intro zi k v h _ _; cases h
  | cons kv rest ih =>
    intro zi k v hmem hnd hcond
    rcases List.mem_cons.mp hmem with heq | hmemrest
    · subst heq
      obtain ⟨h1, h2, h3, hpres⟩ := hcond (k, v) (by simp)
      have hnotin : k ∉ rest.map Prod.fst := by
        rw [List.map_cons, List.nodup_cons] at hnd
        exact hnd.1
      show storedOf (applySets (setKey zi (k, v).1 (k, v).2) rest) k = _
      rw [storedOf_applySets_ne rest (setKey zi (k, v).1 (k, v).2) k ?hframe]
      · exact storedOf_setKey_self zi k v h1 h2 h3 hpres
      case hframe =>
        intro kv' hkv'
        obtain ⟨h1', h2', h3', -⟩ := hcond kv' (by simp [hkv'])
        refine ⟨?_, h1', h2', h3'⟩
        intro hed
        apply hnotin
        rw [← hed]
        exact List.mem_map.mpr ⟨kv', hkv', rfl⟩
    · obtain ⟨h1, h2, h3, hpres⟩ := hcond kv (by simp)
      show storedOf (applySets (setKey zi kv.1 kv.2) rest) k = _
      apply ih (setKey zi kv.1 kv.2) k v hmemrest
      · rw [List.map_cons, List.nodup_cons] at hnd
        exact hnd.2
      · intro kv' hkv'
        obtain ⟨h1', h2', h3', hpres'⟩ := hcond kv' (by simp [hkv'])
        refine ⟨h1', h2', h3', ?_⟩
        rw [firstWithLabel_isSome_setKey zi kv.1 kv.2 h1 h2 h3 kv'.1.1]
        exact hpres'

theorem conv_fixpoint (u : PyVal) (hu : ∀ x d, u ≠ PyVal.tup x d) :
    obsOfStored (some (convAttr u)) = convAttr u := by
  cases u with
  | none => rfl
  | int n => rfl
  | qty m un => rfl
  | bool b => rfl
  | tup x d => exact absurd rfl (hu x d)
  | str s =>
    by_cases hs : s = ""
    · subst hs; rfl
    · cases hq : parseQty s with
      | none =>
        simp [convAttr, pintQ, hq, obsOfStored, untup, hs, isQtyVal]
      | some r2 =>
        obtain ⟨n, uo⟩ := r2
        cases uo with
        | none => simp [convAttr, pintQ, hq, obsOfStored, untup, hs, isQtyVal]
        | some un => simp [convAttr, pintQ, hq, obsOfStored, untup, hs, isQtyVal]

theorem obs_obs (v : PyVal) (hwf : wfVal v) :
    obsOfStored (some (obsOfStored (some v))) = obsOfStored (some v) := by
  by_cases h0 : v = PyVal.none
  · subst h0; rfl
  · have h1 : obsOfStored (some v) = convAttr (untup v) := by
      simp [obsOfStored, h0]
    rw [h1]
    have hu : ∀ x d, untup v ≠ PyVal.tup x d := by
      intro x d h
      cases v with
      | tup y dy =>
        have h' : y = PyVal.tup x d := h
        rw [h'] at hwf
        exact hwf
      | none => cases h
      | str s => cases h
      | int n => cases h
      | qty m un => cases h
      | bool b => cases h
    exact conv_fixpoint (untup v) hu

theorem restore_obs (zi : Input) (k : CKey) (hwf : wfStored zi k) :
    obsOfStored (some (priorOf zi k)) = priorOf zi k := by
  cases hs : storedOf zi k with
  | none =>
    rw [priorOf_of_stored_none zi k hs]
    rfl
  | some s =>
    rw [priorOf_of_stored_some zi k s hs]
    cases s with
    | none => rfl
    | some v =>
      have hwf' : wfVal v := by
        unfold wfStored at hwf
        rw [hs] at hwf
        exact hwf
      exact obs_obs v hwf'

theorem adjust_cons_step (zi : Input) (a p : String) (v : PyVal) (rest : AdjMap)
    (hAL : a ≠ "ALL_LINE") (i : Nat) (c : Command)
    (hfl : zi.firstWithLabel a = some (i, c))
    (h2 : p ≠ "_attributes") (h3 : p ≠ "_output") :
    zi.adjust (((a, p), v) :: rest)
      = match ({ zi with line := zi.line.set i ({ c with attributes := alSet c.attributes p v }) } : Input).adjust rest with
        | .ok (zi', acc) => .ok (zi', ((a, p), c.pyGetattr (rstripUnderscores p)) :: acc)
        | .error e => .error e := by
  cases hrec : ({ zi with line := zi.line.set i ({ c with attributes := alSet c.attributes p v }) } : Input).adjust rest with
  | ok pr =>
    obtain ⟨zi', acc⟩ := pr
    show zi.adjust (((a, p), v) :: rest)
      = Except.ok (zi', ((a, p), c.pyGetattr (rstripUnderscores p)) :: acc)
    unfold Input.adjust
    rw [if_neg hAL, hfl]
    simp only [trySetattr_general c p v h2 h3]
    rw [hrec]
  | error e =>
    show zi.adjust (((a, p), v) :: rest) = Except.error e
    unfold Input.adjust
    rw [if_neg hAL, hfl]
    simp only [trySetattr_general c p v h2 h3]
    rw [hrec]

theorem adjust_run (m : AdjMap) : ∀ zi : Input,
    (∀ kv ∈ m, kv.1.1 ≠ "ALL_LINE"
      ∧ kv.1.2 ≠ "LABEL1" ∧ rstripUnderscores kv.1.2 = kv.1.2
      ∧ kv.1.2 ≠ "_attributes" ∧ kv.1.2 ≠ "_output"
      ∧ (zi.firstWithLabel kv.1.1).isSome = true) →
    (m.map Prod.fst).Nodup →
    zi.adjust m = Except.ok (applySets zi m, m.map (fun kv => (kv.1, priorOf zi kv.1))) := by
  induction m with
  | nil => intro zi _ _; rfl
  | cons kv rest ih =>
    intro zi hcond hnd
    obtain ⟨⟨a, p⟩, v⟩ := kv
    obtain ⟨hAL, h1, hrs, h2, h3, hpres⟩ := hcond ((a, p), v) (by simp)
    obtain ⟨ic, hfl⟩ := Option.isSome_iff_exists.mp hpres
    obtain ⟨i, c⟩ := ic
    rw [adjust_cons_step zi a p v rest hAL i c hfl h2 h3]
    have hziStep : ({ zi with line := zi.line.set i ({ c with attributes := alSet c.attributes p v }) } : Input) = setKey zi (a, p) v :=
      (setKey_line zi (a, p) v h2 h3 i c hfl).symm
    rw [hziStep]
    have hheadnotin : (a, p) ∉ rest.map Prod.fst := by
      rw [List.map_cons, List.nodup_cons] at hnd
      exact hnd.1
    have hndrest : (rest.map Prod.fst).Nodup := by
      rw [List.map_cons, List.nodup_cons] at hnd
      exact hnd.2
    rw [ih (setKey zi (a, p) v) ?condrest hndrest]
    case condrest =>
      intro kv' hkv'
      obtain ⟨hAL', h1', hrs', h2', h3', hpres'⟩ := hcond kv' (by simp [hkv'])
      refine ⟨hAL', h1', hrs', h2', h3', ?_⟩
      rw [firstWithLabel_isSome_setKey zi (a, p) v h1 h2 h3 kv'.1.1]
      exact hpres'
    have htl : rest.map (fun kv' => (kv'.1, priorOf (setKey zi (a, p) v) kv'.1))
        = rest.map (fun kv' => (kv'.1, priorOf zi kv'.1)) := by
      apply List.map_congr_left
      intro kv' hkv'
      have hkne : kv'.1 ≠ (a, p) := by
        intro hed
        apply hheadnotin
        rw [← hed]
        exact List.mem_map.mpr ⟨kv', hkv', rfl⟩
      rw [priorOf_setKey_ne zi (a, p) kv'.1 v h1 h2 h3 hkne]
    have hhd : c.pyGetattr (rstripUnderscores p) = priorOf zi (a, p) := by
      rw [hrs]
      unfold priorOf
      rw [hfl]
    rw [htl, hhd]
    rfl

/-- C4 (amended): for an assignment mapping with pairwise distinct compound
keys, no `ALL_LINE` wildcard, parameter names other than `LABEL1` (and the
two dunder-backed names) without trailing underscores, anchors that all
resolve, and non-nested-tuple stored/assigned values, `adjust(m)` returns
the map of every touched pair's prior (observed) value, and adjusting again
with that returned map restores every touched attribute to its
pre-adjustment observed value. -/
theorem claim4_adjust_roundtrip (zi : Input) (m : AdjMap) (h : adjustableKeys zi m) :
    ∃ zi1 ret, zi.adjust m = Except.ok (zi1, ret)
      ∧ ret = m.map (fun kv => (kv.1, priorOf zi kv.1))
      ∧ ∃ zi2 ret2, zi1.adjust ret = Except.ok (zi2, ret2)
        ∧ ∀ kv ∈ m, priorOf zi2 kv.1 = priorOf zi kv.1 := by
  obtain ⟨hnd, hkeys⟩ := h
  have hrun1 := adjust_run m zi
    (fun kv hkv => by
      obtain ⟨hAL, hL1, hrs, hA, hO, hpres, -, -⟩ := hkeys kv hkv
      exact ⟨hAL, hL1, hrs, hA, hO, hpres⟩) hnd
  refine ⟨applySets zi m, m.map (fun kv => (kv.1, priorOf zi kv.1)), hrun1, rfl, ?_⟩
  have hndret : ((m.map (fun kv => (kv.1, priorOf zi kv.1))).map Prod.fst).Nodup := by
    rw [List.map_map]
    exact hnd
  have hcondkeys : ∀ kv ∈ m, kv.1.2 ≠ "LABEL1" ∧ kv.1.2 ≠ "_attributes" ∧ kv.1.2 ≠ "_output" := by
    intro kv hkv
    obtain ⟨-, hL1, -, hA, hO, -, -, -⟩ := hkeys kv hkv
    exact ⟨hL1, hA, hO⟩
  have hrun2 := adjust_run (m.map (fun kv => (kv.1, priorOf zi kv.1))) (applySets zi m)
    (fun kv' hkv' => by
      obtain ⟨kv, hkv, rfl⟩ := List.mem_map.mp hkv'
      obtain ⟨hAL, hL1, hrs, hA, hO, hpres, -, -⟩ := hkeys kv hkv
      refine ⟨hAL, hL1, hrs, hA, hO, ?_⟩
      rw [firstWithLabel_isSome_applySets m zi kv.1.1 hcondkeys]
      exact hpres) hndret
  refine ⟨_, _, hrun2, ?_⟩
  intro kv hkv
  have hmemret : (kv.1, priorOf zi kv.1) ∈ m.map (fun kv' => (kv'.1, priorOf zi kv'.1)) :=
    List.mem_map.mpr ⟨kv, hkv, rfl⟩
  have hst : storedOf (applySets (applySets zi m) (m.map (fun kv' => (kv'.1, priorOf zi kv'.1))))
      kv.1 = some (some (priorOf zi kv.1)) := by
    apply storedOf_applySets_mem _ _ _ _ hmemret hndret
    intro kv' hkv'
    obtain ⟨kv0, hkv0, rfl⟩ := List.mem_map.mp hkv'
    obtain ⟨-, hL1, -, hA, hO, hpres, -, -⟩ := hkeys kv0 hkv0
    refine ⟨hL1, hA, hO, ?_⟩
    rw [firstWithLabel_isSome_applySets m zi kv0.1.1 hcondkeys]
    exact hpres
  rw [priorOf_of_stored_some _ _ _ hst]
  obtain ⟨-, -, -, -, -, -, hwf, -⟩ := hkeys kv hkv
  exact restore_obs zi kv.1 hwf

/-- Witness for C4 (amended) at a concrete two-command input and a
two-key mapping. -/
theorem claim4_witness :
    adjustableKeys ziTwo [((("B1", "K") : CKey), PyVal.int 7), ((("B2", "K") : CKey), PyVal.int 8)]
    ∧ ∃ zi1 ret,
        ziTwo.adjust [((("B1", "K") : CKey), PyVal.int 7), ((("B2", "K") : CKey), PyVal.int 8)]
          = Except.ok (zi1, ret)
        ∧ ret = [((("B1", "K") : CKey), PyVal.int 7), ((("B2", "K") : CKey), PyVal.int 8)].map
            (fun kv => (kv.1, priorOf ziTwo kv.1))
        ∧ ∃ zi2 ret2, zi1.adjust ret = Except.ok (zi2, ret2)
          ∧ ∀ kv ∈ [((("B1", "K") : CKey), PyVal.int 7), ((("B2", "K") : CKey), PyVal.int 8)],
              priorOf zi2 kv.1 = priorOf ziTwo kv.1 := by
  have hadj : adjustableKeys ziTwo
      [((("B1", "K") : CKey), PyVal.int 7), ((("B2", "K") : CKey), PyVal.int 8)] := by
    constructor
    · decide
    · intro kv hkv
      rcases List.mem_cons.mp hkv with rfl | hkv'
      · exact ⟨by decide, by decide, by decide, by decide, by decide, by decide, trivial, trivial⟩
      · rcases List.mem_cons.mp hkv' with rfl | hkv''
        · exact ⟨by decide, by decide, by decide, by decide, by decide, by decide, trivial, trivial⟩
        · cases hkv''
  exact ⟨hadj, claim4_adjust_roundtrip ziTwo _ hadj⟩

/-!
Claim C6 -- the serialize/parse round trip: character-level lemmas.
-/

theorem cleanChar_ne_nl (c : Char) (h : cleanChar c = true) : c ≠ '\n' := by
  intro e
  subst e
  exact absurd h (by decide)

theorem cleanChar_ne_quote (c : Char) (h : cleanChar c = true) : c ≠ '\'' := by
  intro e
  subst e
  exact absurd h (by decide)

theorem cleanChar_ne_space (c : Char) (h : cleanChar c = true) : c ≠ ' ' := by
  intro e
  subst e
  exact absurd h (by decide)

theorem cleanChar_not_ws (c : Char) (h : cleanChar c = true) : isWsChar c = false := by
  by_contra hb
  rw [Bool.not_eq_false] at hb
  have hmem : c = ' ' ∨ c = '\n' ∨ c = '\t' ∨ c = '\r' := by
    simpa [isWsChar] using hb
  rcases hmem with rfl | rfl | rfl | rfl <;> exact absurd h (by decide)

theorem dropWhile_append_all {p : Char → Bool} (a b : List Char) (h : a.all p = true) :
    (a ++ b).dropWhile p = b.dropWhile p := by
  induction a with
  | nil => rfl
  | cons c a ih =>
    rw [List.all_cons, Bool.and_eq_true] at h
    simpa [List.dropWhile_cons, h.1] using ih h.2

theorem dropWhile_cons_false {p : Char → Bool} (c : Char) (xs : List Char) (h : p c = false) :
    (c :: xs).dropWhile p = c :: xs := by
  simp [List.dropWhile_cons, h]

theorem takeWhile_append_all {p : Char → Bool} (a b : List Char) (h : a.all p = true) :
    (a ++ b).takeWhile p = a ++ b.takeWhile p := by
  induction a with
  | nil => rfl
  | cons c a ih =>
    rw [List.all_cons, Bool.and_eq_true] at h
    simpa [List.takeWhile_cons, h.1] using ih h.2

theorem takeWhile_all {p : Char → Bool} (a : List Char) (h : a.all p = true) :
    a.takeWhile p = a := by
  have := takeWhile_append_all a [] h
  simpa using this

theorem dropEndWhile_append_all {p : Char → Bool} (a b : List Char) (h : b.all p = true) :
    dropEndWhile p (a ++ b) = dropEndWhile p a := by
  unfold dropEndWhile
  rw [List.reverse_append, dropWhile_append_all b.reverse a.reverse (by simpa using h)]

theorem dropEndWhile_last_false {p : Char → Bool} (a : List Char) (c : Char) (h : p c = false) :
    dropEndWhile p (a ++ [c]) = a ++ [c] := by
  unfold dropEndWhile
  rw [List.reverse_append]
  show ((c :: a.reverse).dropWhile p).reverse = _
  rw [dropWhile_cons_false c a.reverse h]
  simp

theorem tokenOk_ne_nil (l : List Char) (h : tokenOk l = true) : l ≠ [] := by
  intro e
  subst e
  exact absurd h (by decide)

theorem tokenOk_all_clean (l : List Char) (h : tokenOk l = true) : l.all cleanChar = true := by
  unfold tokenOk at h
  rw [Bool.and_eq_true, Bool.and_eq_true] at h
  exact h.1.2

theorem token_noNL (l : List Char) (h : l.all cleanChar = true) : noNL l = true := by
  unfold noNL
  rw [List.all_eq_true] at h ⊢
  intro c hc
  have := cleanChar_ne_nl c (h c hc)
  simpa using this

theorem token_noQuote (l : List Char) (h : l.all cleanChar = true) :
    l.all (fun c => c ≠ '\'') = true := by
  rw [List.all_eq_true] at h ⊢
  intro c hc
  have := cleanChar_ne_quote c (h c hc)
  simpa using this

theorem token_noSpace (l : List Char) (h : l.all cleanChar = true) :
    l.all (fun c => c ≠ ' ') = true := by
  rw [List.all_eq_true] at h ⊢
  intro c hc
  have := cleanChar_ne_space c (h c hc)
  simpa using this

theorem token_noWs (l : List Char) (h : l.all cleanChar = true) :
    l.all (fun c => isWsChar c = false) = true := by
  rw [List.all_eq_true] at h ⊢
  intro c hc
  simpa using cleanChar_not_ws c (h c hc)

theorem dropEndWhileWs_token (a l : List Char) (h : tokenOk l = true) :
    dropEndWhile isWsChar (a ++ l) = a ++ l := by
  have hne := tokenOk_ne_nil l h
  have hcl := tokenOk_all_clean l h
  have hdec : a ++ l = (a ++ l.dropLast) ++ [l.getLast hne] := by
    rw [List.append_assoc, List.dropLast_append_getLast hne]
  have hclast : isWsChar (l.getLast hne) = false := by
    apply cleanChar_not_ws
    rw [List.all_eq_true] at hcl
    exact hcl _ (List.getLast_mem hne)
  calc dropEndWhile isWsChar (a ++ l)
      = dropEndWhile isWsChar ((a ++ l.dropLast) ++ [l.getLast hne]) := by rw [← hdec]
    _ = (a ++ l.dropLast) ++ [l.getLast hne] :=
        dropEndWhile_last_false (a ++ l.dropLast) (l.getLast hne) hclast
    _ = a ++ l := hdec.symm

theorem prependHead_prependHead (x y : List Char) (s : List (List Char)) :
    prependHead x (prependHead y s) = prependHead (x ++ y) s := by
  cases s <;> simp [prependHead]

theorem splitOnChar_ne_nil (sep : Char) (l : List Char) : splitOnChar sep l ≠ [] := by
  induction l with
  | nil => simp [splitOnChar]
  | cons c rest ih =>
    by_cases h : c = sep
    · simp [splitOnChar, h]
    · simp only [splitOnChar, if_neg h]
      cases hs : splitOnChar sep rest with
      | nil => exact absurd hs ih
      | cons a t => simp [prependHead]

theorem splitOnChar_clean_append (sep : Char) (a b : List Char)
    (h : a.all (fun c => c ≠ sep) = true) :
    splitOnChar sep (a ++ b) = prependHead a (splitOnChar sep b) := by
  induction a with
  | nil =>
    cases hs : splitOnChar sep b with
    | nil => exact absurd hs (splitOnChar_ne_nil sep b)
    | cons x t =>
      rw [List.nil_append, hs]
      simp [prependHead]
  | cons c a ih =>
    rw [List.all_cons, Bool.and_eq_true] at h
    have hc : ¬ c = sep := by simpa using h.1
    show splitOnChar sep (c :: (a ++ b)) = _
    simp only [splitOnChar, if_neg hc]
    rw [ih h.2, prependHead_prependHead]
    rfl

theorem splitOnChar_clean (sep : Char) (a : List Char)
    (h : a.all (fun c => c ≠ sep) = true) :
    splitOnChar sep a = [a] := by
  have := splitOnChar_clean_append sep a [] h
  simpa [prependHead, splitOnChar] using this

theorem splitNL_sep (a b : List Char) (h : noNL a = true) :
    splitNL (a ++ '\n' :: b) = a :: splitNL b := by
  unfold splitNL at *
  rw [splitOnChar_clean_append '\n' a ('\n' :: b) h]
  simp only [splitOnChar, if_pos rfl]
  cases hs : splitOnChar '\n' b with
  | nil => exact absurd hs (splitOnChar_ne_nil '\n' b)
  | cons x t => simp [prependHead]

theorem splitOnChar_sep (sep : Char) (a b : List Char) (h : a.all (fun c => c ≠ sep) = true) :
    splitOnChar sep (a ++ sep :: b) = a :: splitOnChar sep b := by
  rw [splitOnChar_clean_append sep a (sep :: b) h]
  simp only [splitOnChar, if_pos rfl]
  cases hs : splitOnChar sep b with
  | nil => exact absurd hs (splitOnChar_ne_nil sep b)
  | cons x t => simp [prependHead]

theorem tripleOk_parts (t : List Char × List Char × List Char) (h : tripleOk t = true) :
    tokenOk t.1 = true ∧ tokenOk t.2.1 = true ∧ tokenOrEmpty t.2.2 = true := by
  unfold tripleOk at h
  rw [Bool.and_eq_true, Bool.and_eq_true] at h
  exact ⟨h.1.1, h.1.2, h.2⟩

theorem tokenOrEmpty_all_clean (l : List Char) (h : tokenOrEmpty l = true) :
    l.all cleanChar = true := by
  cases l with
  | nil => rfl
  | cons c l' =>
    unfold tokenOrEmpty at h
    rw [Bool.or_eq_true] at h
    rcases h with h | h
    · simp at h
    · exact tokenOk_all_clean _ h

theorem keyword_token (k : Kind) : tokenOk (Kind.keyword k).data = true := by
  cases k <;> decide

theorem trOf_ok (s : Kind × String × String) (h1 : tokenOk s.2.1.data = true)
    (h2 : tokenOrEmpty s.2.2.data = true) : tripleOk (trOf s) = true := by
  unfold tripleOk trOf
  rw [Bool.and_eq_true, Bool.and_eq_true]
  exact ⟨⟨keyword_token s.1, h1⟩, h2⟩

theorem noNL_lineRaw (t : List Char × List Char × List Char) (h : tripleOk t = true) :
    noNL (lineRaw t) = true := by
  obtain ⟨h1, h2, h3⟩ := tripleOk_parts t h
  have hkw := token_noNL t.1 (tokenOk_all_clean _ h1)
  have hl1 := token_noNL t.2.1 (tokenOk_all_clean _ h2)
  have hl2 := token_noNL t.2.2 (tokenOrEmpty_all_clean _ h3)
  unfold noNL at hkw hl1 hl2
  have hkw' : ∀ x ∈ t.1, ¬ x = '\n' := fun x hx => by
    simpa using List.all_eq_true.mp hkw x hx
  have hl1' : ∀ x ∈ t.2.1, ¬ x = '\n' := fun x hx => by
    simpa using List.all_eq_true.mp hl1 x hx
  have hl2' : ∀ x ∈ t.2.2, ¬ x = '\n' := fun x hx => by
    simpa using List.all_eq_true.mp hl2 x hx
  unfold noNL lineRaw contentRawOf
  simp +decide [sp8, List.all_append, List.all_cons]
  exact ⟨hkw', hl1', hl2'⟩

theorem noNL_contentOf (t : List Char × List Char × List Char) (h : tripleOk t = true) :
    noNL (contentOf t) = true := by
  obtain ⟨h1, h2, h3⟩ := tripleOk_parts t h
  have hkw := token_noNL t.1 (tokenOk_all_clean _ h1)
  have hl1 := token_noNL t.2.1 (tokenOk_all_clean _ h2)
  have hl2 := token_noNL t.2.2 (tokenOrEmpty_all_clean _ h3)
  unfold noNL at hkw hl1 hl2
  have hkw' : ∀ x ∈ t.1, ¬ x = '\n' := fun x hx => by
    simpa using List.all_eq_true.mp hkw x hx
  have hl1' : ∀ x ∈ t.2.1, ¬ x = '\n' := fun x hx => by
    simpa using List.all_eq_true.mp hl1 x hx
  have hl2' : ∀ x ∈ t.2.2, ¬ x = '\n' := fun x hx => by
    simpa using List.all_eq_true.mp hl2 x hx
  unfold noNL contentOf contentStr
  by_cases he : t.2.2.isEmpty = true
  · rw [if_pos he]
    simp +decide [List.all_append, List.all_cons]
    exact ⟨hkw', hl1'⟩
  · rw [if_neg he]
    simp +decide [List.all_append, List.all_cons]
    exact ⟨hkw', hl1', hl2'⟩

theorem contentOf_last (t : List Char × List Char × List Char) (h : tripleOk t = true) :
    ∃ a c, contentOf t = a ++ [c] ∧ cleanChar c = true := by
  obtain ⟨h1, h2, h3⟩ := tripleOk_parts t h
  by_cases he : t.2.2.isEmpty = true
  · have he' : t.2.2 = [] := by
      cases hz : t.2.2 with
      | nil => rfl
      | cons x xs => rw [hz] at he; simp at he
    have hne := tokenOk_ne_nil t.2.1 h2
    refine ⟨'\'' :: t.1 ++ '\'' :: ' ' :: t.2.1.dropLast, t.2.1.getLast hne, ?_, ?_⟩
    · calc contentOf t = '\'' :: t.1 ++ '\'' :: ' ' :: t.2.1 := by
            simp [contentOf, contentStr, he']
        _ = '\'' :: t.1 ++ '\'' :: ' ' :: (t.2.1.dropLast ++ [t.2.1.getLast hne]) := by
            rw [List.dropLast_append_getLast hne]
        _ = ('\'' :: t.1 ++ '\'' :: ' ' :: t.2.1.dropLast) ++ [t.2.1.getLast hne] := by
            simp [List.append_assoc]
    · have hcl := tokenOk_all_clean t.2.1 h2
      rw [List.all_eq_true] at hcl
      exact hcl _ (List.getLast_mem hne)
  · have h2' : tokenOk t.2.2 = true := by
      unfold tokenOrEmpty at h3
      rw [Bool.or_eq_true] at h3
      rcases h3 with h3 | h3
      · exact absurd h3 he
      · exact h3
    have hne := tokenOk_ne_nil t.2.2 h2'
    refine ⟨'\'' :: t.1 ++ '\'' :: ' ' :: t.2.1 ++ ' ' :: t.2.2.dropLast, t.2.2.getLast hne,
      ?_, ?_⟩
    · calc contentOf t = '\'' :: t.1 ++ '\'' :: ' ' :: t.2.1 ++ ' ' :: t.2.2 := by
            simp [contentOf, contentStr, if_neg he, hne]
        _ = '\'' :: t.1 ++ '\'' :: ' ' :: t.2.1
              ++ ' ' :: (t.2.2.dropLast ++ [t.2.2.getLast hne]) := by
            rw [List.dropLast_append_getLast hne]
        _ = ('\'' :: t.1 ++ '\'' :: ' ' :: t.2.1 ++ ' ' :: t.2.2.dropLast)
              ++ [t.2.2.getLast hne] := by
            simp [List.append_assoc]
    · have hcl := tokenOk_all_clean t.2.2 h2'
      rw [List.all_eq_true] at hcl
      exact hcl _ (List.getLast_mem hne)

theorem strippedJT_last (r : List (List Char × List Char × List Char))
    (hr : ∀ t ∈ r, tripleOk t = true) (hne : r ≠ []) :
    ∃ a c, strippedJT r = a ++ [c] ∧ cleanChar c = true := by
  induction r with
  | nil => exact absurd rfl hne
  | cons t r' ih =>
    cases r' with
    | nil =>
      obtain ⟨a, c, hdec, hc⟩ := contentOf_last t (hr t (by simp))
      refine ⟨'\n' :: '\n' :: a, c, ?_, hc⟩
      show '\n' :: '\n' :: contentStr t.1 t.2.1 t.2.2 ++ strippedJT [] = _
      rw [show strippedJT ([] : List (List Char × List Char × List Char)) = [] from rfl]
      rw [show contentStr t.1 t.2.1 t.2.2 = contentOf t from rfl, hdec]
      simp
    | cons t' r'' =>
      obtain ⟨a, c, hdec, hc⟩ := ih (fun x hx => hr x (by simp [hx])) (by simp)
      refine ⟨'\n' :: '\n' :: contentOf t ++ a, c, ?_, hc⟩
      show '\n' :: '\n' :: contentStr t.1 t.2.1 t.2.2 ++ strippedJT (t' :: r'') = _
      rw [show contentStr t.1 t.2.1 t.2.2 = contentOf t from rfl, hdec]
      simp [List.append_assoc]

theorem body_last (name : List Char) (t : List Char × List Char × List Char)
    (rest : List (List Char × List Char × List Char))
    (ht : tripleOk t = true) (hr : ∀ x ∈ rest, tripleOk x = true) :
    ∃ a c, name ++ '\n' :: (contentOf t ++ strippedJT rest) = a ++ [c] ∧ cleanChar c = true := by
  cases rest with
  | nil =>
    obtain ⟨a, c, hdec, hc⟩ := contentOf_last t ht
    refine ⟨name ++ '\n' :: a, c, ?_, hc⟩
    rw [show strippedJT ([] : List (List Char × List Char × List Char)) = [] from rfl, hdec]
    simp [List.append_assoc]
  | cons t' rest' =>
    obtain ⟨a, c, hdec, hc⟩ := strippedJT_last (t' :: rest') hr (by simp)
    refine ⟨name ++ '\n' :: (contentOf t ++ a), c, ?_, hc⟩
    rw [hdec]
    simp [List.append_assoc]

theorem stripWs_token (l : List Char) (h : tokenOk l = true) : stripWs l = l := by
  have hcl := tokenOk_all_clean l h
  unfold stripWs
  have h1 : l.dropWhile isWsChar = l := by
    cases l with
    | nil => rfl
    | cons c l' =>
      rw [List.all_cons, Bool.and_eq_true] at hcl
      exact dropWhile_cons_false c l' (cleanChar_not_ws c hcl.1)
  rw [h1]
  have := dropEndWhileWs_token [] l h
  simpa using this

theorem stripWs_lineRaw (t : List Char × List Char × List Char) (h : tripleOk t = true) :
    stripWs (lineRaw t) = contentOf t := by
  obtain ⟨h1, h2, h3⟩ := tripleOk_parts t h
  unfold stripWs lineRaw
  have hd : (sp8 ++ contentRawOf t).dropWhile isWsChar = contentRawOf t := by
    rw [dropWhile_append_all sp8 _ (by decide)]
    exact dropWhile_cons_false '\'' _ (by decide)
  rw [hd]
  by_cases he : t.2.2.isEmpty = true
  · have he' : t.2.2 = [] := by
      cases hz : t.2.2 with
      | nil => rfl
      | cons x xs => rw [hz] at he; simp at he
    have hshape : contentRawOf t = ('\'' :: t.1 ++ ['\'', ' ']) ++ (t.2.1 ++ [' ']) := by
      unfold contentRawOf
      rw [he']
      simp [List.append_assoc]
    rw [hshape, ← List.append_assoc, dropEndWhile_append_all _ [' '] (by decide)]
    have hshape2 : ('\'' :: t.1 ++ ['\'', ' ']) ++ t.2.1 = ('\'' :: t.1 ++ ['\'', ' ']) ++ t.2.1 :=
      rfl
    rw [dropEndWhileWs_token _ _ h2]
    simp [contentOf, contentStr, he', List.append_assoc]
  · have h2' : tokenOk t.2.2 = true := by
      unfold tokenOrEmpty at h3
      rw [Bool.or_eq_true] at h3
      rcases h3 with h3 | h3
      · exact absurd h3 he
      · exact h3
    have hshape : contentRawOf t = ('\'' :: t.1 ++ '\'' :: ' ' :: t.2.1 ++ [' ']) ++ t.2.2 := by
      unfold contentRawOf
      simp [List.append_assoc]
    rw [hshape, dropEndWhileWs_token _ _ h2', ← hshape]
    unfold contentOf contentStr contentRawOf
    rw [if_neg he]

theorem splitNL_cons_nl (x : List Char) : splitNL ('\n' :: x) = [] :: splitNL x := by
  show splitOnChar '\n' ('\n' :: x) = [] :: splitOnChar '\n' x
  simp [splitOnChar]

theorem splitNL_clean_append (a b : List Char) (h : noNL a = true) :
    splitNL (a ++ b) = prependHead a (splitNL b) :=
  splitOnChar_clean_append '\n' a b h

theorem splitNL_segs (ts : List (List Char × List Char × List Char))
    (h : ∀ t ∈ ts, tripleOk t = true) : splitNL (segsOf ts) = stageLines ts := by
  induction ts with
  | nil => rfl
  | cons t rest ih =>
    have hsegs : segsOf (t :: rest) = '\n' :: (lineRaw t ++ '\n' :: (sp8 ++ segsOf rest)) := by
      simp [segsOf, segBase, lineRaw, contentRawOf, List.append_assoc]
    rw [hsegs, splitNL_cons_nl, splitNL_sep _ _ (noNL_lineRaw t (h t (by simp))),
      splitNL_clean_append sp8 _ (by decide), ih (fun x hx => h x (by simp [hx]))]
    rfl

theorem map_strip_stage (rest : List (List Char × List Char × List Char))
    (h : ∀ t ∈ rest, tripleOk t = true) :
    (prependHead sp8 (stageLines rest)).map stripWs = strippedTail rest := by
  induction rest with
  | nil => decide
  | cons t rest' ih =>
    show ((sp8 ++ []) :: (sp8 ++ contentRawOf t) :: prependHead sp8 (stageLines rest')).map
        stripWs = strippedTail (t :: rest')
    simp only [List.map_cons]
    rw [show stripWs (sp8 ++ []) = [] from by decide,
      show stripWs (sp8 ++ contentRawOf t) = stripWs (lineRaw t) from rfl,
      stripWs_lineRaw t (h t (by simp)), ih (fun x hx => h x (by simp [hx]))]
    rfl

theorem flatten_strippedTail (r : List (List Char × List Char × List Char)) :
    ((strippedTail r).map (fun p => '\n' :: p)).flatten = joinedTail r := by
  induction r with
  | nil => rfl
  | cons t r' ih =>
    show (([] :: contentStr t.1 t.2.1 t.2.2 :: strippedTail r').map
        (fun p => '\n' :: p)).flatten = joinedTail (t :: r')
    simp only [List.map_cons, List.flatten_cons, ih]
    rfl

theorem joinedTail_eq (r : List (List Char × List Char × List Char)) :
    joinedTail r = strippedJT r ++ ['\n'] := by
  induction r with
  | nil => rfl
  | cons t r' ih =>
    show '\n' :: '\n' :: contentStr t.1 t.2.1 t.2.2 ++ joinedTail r' = _
    rw [ih]
    show _ = '\n' :: '\n' :: contentStr t.1 t.2.1 t.2.2 ++ strippedJT r' ++ ['\n']
    simp [List.append_assoc]

theorem joinNL_cons2 (x y : List Char) (r : List (List Char × List Char × List Char)) :
    joinNL (x :: y :: strippedTail r) = x ++ '\n' :: (y ++ joinedTail r) := by
  show x ++ (((y :: strippedTail r).map (fun p => '\n' :: p)).flatten) = _
  simp only [List.map_cons, List.flatten_cons, flatten_strippedTail r]
  rfl

theorem stripNLs_body (name : List Char) (t : List Char × List Char × List Char)
    (rest : List (List Char × List Char × List Char))
    (hname : tokenOk name = true) (ht : tripleOk t = true)
    (hr : ∀ x ∈ rest, tripleOk x = true) :
    stripNLs (name ++ '\n' :: (contentOf t ++ (strippedJT rest ++ ['\n'])))
      = name ++ '\n' :: (contentOf t ++ strippedJT rest) := by
  have hX : name ++ '\n' :: (contentOf t ++ (strippedJT rest ++ ['\n']))
      = (name ++ '\n' :: (contentOf t ++ strippedJT rest)) ++ ['\n'] := by
    simp [List.append_assoc]
  rw [hX]
  unfold stripNLs
  have hnn := tokenOk_ne_nil name hname
  have hcl := tokenOk_all_clean name hname
  cases hn : name with
  | nil => exact absurd hn hnn
  | cons n₀ name' =>
    rw [hn] at hcl
    rw [List.all_cons, Bool.and_eq_true] at hcl
    have hn₀ : decide (n₀ = '\n') = false := decide_eq_false (cleanChar_ne_nl n₀ hcl.1)
    have hdrop : (((n₀ :: name') ++ '\n' :: (contentOf t ++ strippedJT rest))
        ++ ['\n']).dropWhile (fun c => c = '\n')
        = ((n₀ :: name') ++ '\n' :: (contentOf t ++ strippedJT rest)) ++ ['\n'] :=
      dropWhile_cons_false n₀ _ hn₀
    rw [hdrop, dropEndWhile_append_all _ ['\n'] (by decide)]
    obtain ⟨a, c, hdec, hc⟩ := body_last (n₀ :: name') t rest ht hr
    rw [hdec]
    exact dropEndWhile_last_false a c (decide_eq_false (cleanChar_ne_nl c hc))

theorem hasNN_cons_false (c1 c2 : Char) (x : List Char) (h : hasNN (c1 :: c2 :: x) = false) :
    ¬(c1 = '\n' ∧ c2 = '\n') ∧ hasNN (c2 :: x) = false := by
  constructor
  · rintro ⟨rfl, rfl⟩
    simp [hasNN] at h
  · unfold hasNN at h
    by_cases ht : hasNN (c2 :: x) = false
    · exact ht
    · rw [Bool.not_eq_false] at ht
      rw [ht, Bool.or_true] at h
      exact absurd h (by simp)

theorem hasNN_sep (a b : List Char) (ha : noNL a = true) (hb : hasNN b = false)
    (hhead : b.head? ≠ some '\n') : hasNN (a ++ '\n' :: b) = false := by
  induction a with
  | nil =>
    cases b with
    | nil => rfl
    | cons c b' =>
      have hc : ¬ c = '\n' := fun e => hhead (by rw [e]; rfl)
      show hasNN ('\n' :: c :: b') = false
      simp [hasNN, decide_eq_false hc, hb]
  | cons c a' ih =>
    unfold noNL at ha
    rw [List.all_cons, Bool.and_eq_true] at ha
    have hc : ¬ c = '\n' := by simpa using ha.1
    have ha' : noNL a' = true := ha.2
    cases a' with
    | nil =>
      show hasNN (c :: '\n' :: b) = false
      have htail := ih ha'
      rw [List.nil_append] at htail
      simp [hasNN, decide_eq_false hc, htail]
    | cons c₂ a'' =>
      show hasNN (c :: c₂ :: (a'' ++ '\n' :: b)) = false
      have htail : hasNN (c₂ :: (a'' ++ '\n' :: b)) = false := ih ha'
      simp [hasNN, decide_eq_false hc, htail]

theorem hasNN_append_nl (a : List Char) (h : noNL a = true) : hasNN (a ++ ['\n']) = false :=
  hasNN_sep a [] h rfl (by simp)

theorem hasNN_left (B x : List Char) (h : hasNN (B ++ x) = false) : hasNN B = false := by
  induction B with
  | nil => rfl
  | cons c B' ih =>
    cases B' with
    | nil => rfl
    | cons c₂ B'' =>
      have hd := hasNN_cons_false c c₂ (B'' ++ x) h
      have ht : hasNN (c₂ :: B'') = false := ih hd.2
      have hp : (decide (c = '\n') && decide (c₂ = '\n')) = false := by
        by_cases h1 : c = '\n'
        · by_cases h2 : c₂ = '\n'
          · exact absurd ⟨h1, h2⟩ hd.1
          · simp [decide_eq_false h2]
        · simp [decide_eq_false h1]
      show hasNN (c :: c₂ :: B'') = false
      simp [hasNN, hp, ht]

theorem splitNN_single (l : List Char) (h : hasNN l = false) : splitNN l = [l] := by
  induction l with
  | nil => rfl
  | cons c1 rest ih =>
    cases rest with
    | nil => rfl
    | cons c2 rest' =>
      have hd := hasNN_cons_false c1 c2 rest' h
      show splitNN (c1 :: c2 :: rest') = [c1 :: c2 :: rest']
      simp only [splitNN]
      rw [if_neg hd.1, ih hd.2]
      simp [prependHead]

theorem splitNN_append (p rest : List Char) (h : hasNN (p ++ ['\n']) = false) :
    splitNN (p ++ '\n' :: '\n' :: rest) = p :: splitNN rest := by
  induction p with
  | nil =>
    rw [List.nil_append]
    simp [splitNN]
  | cons c p' ih =>
    cases p' with
    | nil =>
      have hc : ¬ (c = '\n') := by
        intro e
        subst e
        simp [hasNN] at h
      show splitNN (c :: '\n' :: '\n' :: rest) = [c] :: splitNN rest
      simp only [splitNN]
      rw [if_neg (by rintro ⟨e, _⟩; exact hc e), if_pos ⟨trivial, trivial⟩]
      simp [prependHead]
    | cons c₂ p'' =>
      have hd := hasNN_cons_false c c₂ (p'' ++ ['\n']) h
      have htail := ih hd.2
      have htail' : splitNN (c₂ :: (p'' ++ '\n' :: '\n' :: rest)) = (c₂ :: p'') :: splitNN rest :=
        htail
      show splitNN (c :: c₂ :: (p'' ++ '\n' :: '\n' :: rest)) = (c :: c₂ :: p'') :: splitNN rest
      simp only [splitNN]
      rw [if_neg hd.1, htail']
      simp [prependHead]

theorem splitNN_blocks (B : List Char) (r : List (List Char × List Char × List Char))
    (hB : hasNN (B ++ ['\n']) = false) (hr : ∀ t ∈ r, tripleOk t = true) :
    splitNN (B ++ strippedJT r) = B :: r.map contentOf := by
  induction r generalizing B with
  | nil =>
    rw [show strippedJT ([] : List (List Char × List Char × List Char)) = [] from rfl,
      List.append_nil, splitNN_single B (hasNN_left B ['\n'] hB)]
    rfl
  | cons t r' ih =>
    rw [show B ++ strippedJT (t :: r')
        = B ++ '\n' :: '\n' :: (contentOf t ++ strippedJT r') from rfl]
    rw [splitNN_append B _ hB]
    rw [ih (contentOf t) (hasNN_append_nl _ (noNL_contentOf t (hr t (by simp))))
      (fun x hx => hr x (by simp [hx]))]
    rfl

theorem pipeline_build (name : List Char) (t₁ : List Char × List Char × List Char)
    (rest : List (List Char × List Char × List Char))
    (hname : tokenOk name = true) (h1 : tripleOk t₁ = true)
    (hr : ∀ t ∈ rest, tripleOk t = true) :
    pipelineBlocks (name ++ segsOf (t₁ :: rest))
      = (name ++ '\n' :: contentOf t₁) :: rest.map contentOf := by
  have hnn : noNL name = true := token_noNL name (tokenOk_all_clean _ hname)
  unfold pipelineBlocks
  have hsegs : name ++ segsOf (t₁ :: rest)
      = name ++ '\n' :: (lineRaw t₁ ++ '\n' :: (sp8 ++ segsOf rest)) := by
    simp [segsOf, segBase, lineRaw, contentRawOf, List.append_assoc]
  rw [hsegs, splitNL_sep name _ hnn, splitNL_sep _ _ (noNL_lineRaw t₁ h1),
    splitNL_clean_append sp8 _ (by decide), splitNL_segs rest hr]
  simp only [List.map_cons]
  rw [stripWs_token name hname, stripWs_lineRaw t₁ h1, map_strip_stage rest hr]
  rw [joinNL_cons2, joinedTail_eq rest]
  rw [stripNLs_body name t₁ rest hname h1 hr]
  have hB : name ++ '\n' :: (contentOf t₁ ++ strippedJT rest)
      = (name ++ '\n' :: contentOf t₁) ++ strippedJT rest := by
    simp [List.append_assoc]
  have hB0 : hasNN ((name ++ '\n' :: contentOf t₁) ++ ['\n']) = false := by
    have hsh : (name ++ '\n' :: contentOf t₁) ++ ['\n']
        = name ++ '\n' :: (contentOf t₁ ++ ['\n']) := by
      simp [List.append_assoc]
    rw [hsh]
    apply hasNN_sep name _ hnn (hasNN_append_nl _ (noNL_contentOf t₁ h1))
    have hhead : (contentOf t₁ ++ ['\n']).head? = some '\'' := rfl
    intro hcontra
    rw [hhead] at hcontra
    simp at hcontra
  rw [hB, splitNN_blocks (name ++ '\n' :: contentOf t₁) rest hB0 hr]

theorem init_attrs (k : Kind) (hk : k.parameters = []) (l1 l2 fresh : String) :
    (Command.init k l1 l2 fresh []).attributes
      = [("LABEL1", PyVal.str (if l1 = "" then fresh else l1)), ("LABEL2", PyVal.str l2)] := by
  unfold Command.init
  rw [hk]
  rfl

theorem alGet_cons {κ V : Type} [DecidableEq κ] (k' : κ) (v : V) (rest : List (κ × V)) (k : κ) :
    alGet ((k', v) :: rest) k = if k' = k then some v else alGet rest k := rfl

theorem convAttr_token (v : String) (h : v = "" ∨ tokenOk v.data = true) :
    convAttr (PyVal.str v) = PyVal.str v := by
  rcases h with rfl | h
  · rfl
  · have hne : ¬ v = "" := by
      intro e
      subst e
      exact absurd h (by decide)
    have hq : parseQty v = Option.none := by
      unfold tokenOk at h
      rw [Bool.and_eq_true] at h
      have h2 := h.2
      rw [Option.isNone_iff_eq_none] at h2
      exact h2
    have hp : pintQ (PyVal.str v) = Except.error "UndefinedUnitError" := by
      simp [pintQ, hq]
    have hcond : ¬ (PyVal.str v = PyVal.str "" ∨ isQtyVal (PyVal.str v) = true) := by
      rintro (he | hqv)
      · exact hne (by injection he)
      · simp [isQtyVal] at hqv
    unfold convAttr
    rw [if_neg hcond, hp]

theorem init_getattr (k : Kind) (hk : k.parameters = []) (l1 l2 fresh : String)
    (h1 : tokenOk l1.data = true) (h2 : l2 = "" ∨ tokenOk l2.data = true) :
    (Command.init k l1 l2 fresh []).pyGetattr "LABEL1" = PyVal.str l1
    ∧ (Command.init k l1 l2 fresh []).pyGetattr "LABEL2" = PyVal.str l2 := by
  have hne : ¬ l1 = "" := by
    intro e
    rw [e] at h1
    exact absurd h1 (by decide)
  have hat := init_attrs k hk l1 l2 fresh
  constructor
  · rw [pyGetattr_eq_obs, hat, alGet_cons, if_pos rfl, if_neg hne]
    simp [obsOfStored, untup, convAttr_token l1 (Or.inr h1)]
  · rw [pyGetattr_eq_obs, hat, alGet_cons, if_neg (by decide), alGet_cons, if_pos rfl]
    simp [obsOfStored, untup, convAttr_token l2 h2]

theorem str_eq_base (c : Command) (h : ¬ c.kind = Kind.matrix) : Command.str c = c.strBase := by
  rcases c with ⟨k, attrs, out⟩
  cases k <;> first | exact absurd rfl h | rfl

theorem cmd_str_good (k : Kind) (hk : goodKind k = true) (l1 l2 u : String)
    (h1 : tokenOk l1.data = true) (h2 : tokenOrEmpty l2.data = true) :
    Command.str (Command.init k l1 l2 u []) = segBase (Kind.keyword k).data l1.data l2.data := by
  have hmat : ¬ (Command.init k l1 l2 u []).kind = Kind.matrix := by
    show ¬ k = Kind.matrix
    intro e
    subst e
    exact absurd hk (by decide)
  have hpar : k.parameters = [] := by
    cases k <;> first | rfl | exact absurd hk (by decide)
  have h2' : l2 = "" ∨ tokenOk l2.data = true := by
    unfold tokenOrEmpty at h2
    rw [Bool.or_eq_true] at h2
    rcases h2 with h | h
    · left
      obtain ⟨d⟩ := l2
      cases d with
      | nil => rfl
      | cons x xs => simp at h
    · right
      exact h
  obtain ⟨g1, g2⟩ := init_getattr k hpar l1 l2 u h1 h2'
  rw [str_eq_base _ hmat]
  unfold Command.strBase segBase
  rw [g1, g2]
  rfl

theorem goodKind_lookup (k : Kind) (h : goodKind k = true) :
    moduleLookup (pyCapitalize (Kind.keyword k).data) = some k := by
  cases k <;> first | rfl | exact absurd h (by decide)

theorem extractKeyword_content (pre kw l1 l2 : List Char)
    (hpre : pre.all (fun c => c ≠ '\'') = true)
    (hkw : kw.all (fun c => c ≠ '\'') = true) :
    extractKeyword (pre ++ contentStr kw l1 l2)
      = some (kw, ' ' :: (l1 ++ (if l2.isEmpty then [] else ' ' :: l2))) := by
  have h₁ : (pre ++ contentStr kw l1 l2).dropWhile (fun c => c ≠ '\'')
      = '\'' :: (kw ++ '\'' :: (' ' :: (l1 ++ (if l2.isEmpty then [] else ' ' :: l2)))) := by
    rw [show pre ++ contentStr kw l1 l2
        = pre ++ '\'' :: (kw ++ '\'' :: (' ' :: (l1 ++ (if l2.isEmpty then [] else ' ' :: l2))))
        from by simp [contentStr, List.append_assoc]]
    rw [dropWhile_append_all pre _ hpre]
    exact dropWhile_cons_false _ _ (by decide)
  have h₂ : (kw ++ '\'' :: (' ' :: (l1 ++ (if l2.isEmpty then [] else ' ' :: l2)))).takeWhile
      (fun c => c ≠ '\'') = kw := by
    rw [takeWhile_append_all kw _ hkw]
    simp [List.takeWhile_cons]
  have h₃ : (kw ++ '\'' :: (' ' :: (l1 ++ (if l2.isEmpty then [] else ' ' :: l2)))).dropWhile
      (fun c => c ≠ '\'')
      = '\'' :: (' ' :: (l1 ++ (if l2.isEmpty then [] else ' ' :: l2))) := by
    rw [dropWhile_append_all kw _ hkw]
    exact dropWhile_cons_false _ _ (by decide)
  unfold extractKeyword
  rw [h₁]
  simp only [h₂, h₃]

theorem splitWords_one (l1 : List Char) (h1 : tokenOk l1 = true) :
    splitWords (' ' :: l1) = [l1] := by
  unfold splitWords
  rw [show splitOnChar ' ' (' ' :: l1) = [] :: splitOnChar ' ' l1 from by simp [splitOnChar]]
  rw [splitOnChar_clean ' ' l1 (token_noSpace l1 (tokenOk_all_clean _ h1))]
  simp [List.filter_cons, tokenOk_ne_nil l1 h1]

theorem splitWords_two (l1 l2 : List Char) (h1 : tokenOk l1 = true) (h2 : tokenOk l2 = true) :
    splitWords (' ' :: (l1 ++ ' ' :: l2)) = [l1, l2] := by
  unfold splitWords
  rw [show splitOnChar ' ' (' ' :: (l1 ++ ' ' :: l2))
      = [] :: splitOnChar ' ' (l1 ++ ' ' :: l2) from by simp [splitOnChar]]
  rw [splitOnChar_sep ' ' l1 l2 (token_noSpace l1 (tokenOk_all_clean _ h1))]
  rw [splitOnChar_clean ' ' l2 (token_noSpace l2 (tokenOk_all_clean _ h2))]
  simp [List.filter_cons, tokenOk_ne_nil l1 h1, tokenOk_ne_nil l2 h2]

theorem init_fresh_irrel (k : Kind) (l1 l2 u u' : String) (h : ¬ l1 = "") :
    Command.init k l1 l2 u [] = Command.init k l1 l2 u' [] := by
  unfold Command.init
  rw [if_neg h, if_neg h]

theorem endInit_eq (fresh : String) :
    Command.init Kind.endcmd fresh "" "" [] = Command.init Kind.endcmd "" "" fresh [] := by
  by_cases hf : fresh = ""
  · subst hf
    rfl
  · unfold Command.init
    rw [if_neg hf, if_pos rfl]

theorem parseBlock_content (pre : List Char) (s : Kind × String × String)
    (hpre : pre.all (fun c => c ≠ '\'') = true)
    (hg : goodKind s.1 = true) (h1 : tokenOk s.2.1.data = true)
    (h2 : tokenOrEmpty s.2.2.data = true) :
    parseBlock (pre ++ contentOf (trOf s)) = Except.ok (Command.init s.1 s.2.1 s.2.2 "" []) := by
  obtain ⟨k, l1, l2⟩ := s
  have hkwcl : (Kind.keyword k).data.all (fun c => c ≠ '\'') = true :=
    token_noQuote _ (tokenOk_all_clean _ (keyword_token k))
  have hEx := extractKeyword_content pre (Kind.keyword k).data l1.data l2.data hpre hkwcl
  have hContent : contentOf (trOf (k, l1, l2))
      = contentStr (Kind.keyword k).data l1.data l2.data := rfl
  have h2'' : tokenOrEmpty l2.data = true := h2
  have hY : (' ' :: (l1.data ++ (if l2.data.isEmpty then [] else ' ' :: l2.data))).takeWhile
      (fun c => c ≠ '\n')
      = ' ' :: (l1.data ++ (if l2.data.isEmpty then [] else ' ' :: l2.data)) := by
    apply takeWhile_all
    have hl1 := token_noNL l1.data (tokenOk_all_clean _ h1)
    have hl2 := token_noNL l2.data (tokenOrEmpty_all_clean _ h2'')
    unfold noNL at hl1 hl2
    have hl1' : ∀ x ∈ l1.data, ¬ x = '\n' := fun x hx => by
      simpa using List.all_eq_true.mp hl1 x hx
    have hl2' : ∀ x ∈ l2.data, ¬ x = '\n' := fun x hx => by
      simpa using List.all_eq_true.mp hl2 x hx
    by_cases he : l2.data.isEmpty = true
    · rw [if_pos he]
      simp +decide [List.all_cons, List.all_append]
      exact hl1'
    · rw [if_neg he]
      simp +decide [List.all_cons, List.all_append]
      exact ⟨hl1', hl2'⟩
  unfold parseBlock
  rw [hContent, hEx]
  simp only [goodKind_lookup k hg]
  congr 1
  unfold Command.buildFromBlock
  rw [hEx]
  simp only [hY]
  by_cases he : l2.data.isEmpty = true
  · have hl2e : l2 = "" := by
      obtain ⟨d⟩ := l2
      cases d with
      | nil => rfl
      | cons x xs => simp at he
    rw [if_pos he, List.append_nil, splitWords_one l1.data h1, hl2e]
    rfl
  · have h2v : tokenOk l2.data = true := by
      unfold tokenOrEmpty at h2''
      rw [Bool.or_eq_true] at h2''
      rcases h2'' with h | h
      · exact absurd h he
      · exact h
    rw [if_neg he, splitWords_two l1.data l2.data h1 h2v]
    rfl

theorem mapM_parse_tail (S : List (Kind × String × String))
    (h : ∀ s ∈ S, parseBlock (contentOf (trOf s))
      = Except.ok (Command.init s.1 s.2.1 s.2.2 "" [])) :
    (S.map (fun s => contentOf (trOf s))).mapM parseBlock
      = Except.ok (S.map (fun s => Command.init s.1 s.2.1 s.2.2 "" [])) := by
  induction S with
  | nil => rfl
  | cons s S' ih =>
    rw [List.map_cons, List.mapM_cons, h s (by simp), ih (fun x hx => h x (by simp [hx])),
      List.map_cons]
    rfl

theorem parse_eval (stream : List Char) (cmds : List Command)
    (h : (pipelineBlocks stream).mapM parseBlock = Except.ok cmds) :
    Input.parse stream
      = Except.ok { name := "beamline", line := cmds, paths := [], extraDict := [] } := by
  have hdef : Input.parse stream
      = match (pipelineBlocks stream).mapM parseBlock with
        | Except.ok cs => Except.ok { name := "beamline", line := cs, paths := [], extraDict := [] }
        | Except.error e => Except.error e := rfl
  rw [hdef, h]

theorem parse_name_segs (name : List Char) (S : List (Kind × String × String))
    (hname : tokenOk name = true) (hne : S ≠ [])
    (hgood : ∀ s ∈ S, goodKind s.1 = true ∧ tokenOk s.2.1.data = true
      ∧ tokenOrEmpty s.2.2.data = true) :
    Input.parse (name ++ segsOf (S.map trOf))
      = Except.ok { name := "beamline", line := S.map (fun s => Command.init s.1 s.2.1 s.2.2 "" []), paths := [], extraDict := [] } := by
  cases S with
  | nil => exact absurd rfl hne
  | cons s₁ S' =>
    obtain ⟨hg1, h11, h12⟩ := hgood s₁ (by simp)
    have htr : ∀ t ∈ S'.map trOf, tripleOk t = true := by
      intro t ht
      rw [List.mem_map] at ht
      obtain ⟨s, hs, rfl⟩ := ht
      obtain ⟨_, hb, hc⟩ := hgood s (by simp [hs])
      exact trOf_ok s hb hc
    have hpipe := pipeline_build name (trOf s₁) (S'.map trOf) hname
      (trOf_ok s₁ h11 h12) htr
    have hb0 : parseBlock (name ++ '\n' :: contentOf (trOf s₁))
        = Except.ok (Command.init s₁.1 s₁.2.1 s₁.2.2 "" []) := by
      have hp : (name ++ ['\n']).all (fun c => c ≠ '\'') = true := by
        have hq := token_noQuote name (tokenOk_all_clean _ hname)
        have hq' : ∀ x ∈ name, ¬ x = '\'' := fun x hx => by
          simpa using List.all_eq_true.mp hq x hx
        simp +decide [List.all_append]
        exact hq'
      have hres := parseBlock_content (name ++ ['\n']) s₁ hp hg1 h11 h12
      rw [show (name ++ ['\n']) ++ contentOf (trOf s₁)
          = name ++ '\n' :: contentOf (trOf s₁) from by simp] at hres
      exact hres
    have htail : ∀ s ∈ S', parseBlock (contentOf (trOf s))
        = Except.ok (Command.init s.1 s.2.1 s.2.2 "" []) := by
      intro s hs
      obtain ⟨ha, hb, hc⟩ := hgood s (by simp [hs])
      simpa using parseBlock_content [] s rfl ha hb hc
    apply parse_eval
    simp only [List.map_cons]
    rw [hpipe]
    rw [show (S'.map trOf).map contentOf = S'.map (fun s => contentOf (trOf s)) from by
      rw [List.map_map]; rfl]
    rw [List.mapM_cons, hb0, mapM_parse_tail S' htail]
    rfl

theorem segsOf_append (A B : List (List Char × List Char × List Char)) :
    segsOf (A ++ B) = segsOf A ++ segsOf B := by
  unfold segsOf
  rw [List.map_append, List.flatten_append]

theorem strs_eq_segs (u : String) (specs : List (Kind × String × String))
    (hgood : ∀ s ∈ specs, goodKind s.1 = true ∧ tokenOk s.2.1.data = true
      ∧ tokenOrEmpty s.2.2.data = true) :
    ((specs.map (initOf u)).map Command.str).flatten = segsOf (specs.map trOf) := by
  unfold segsOf
  rw [List.map_map, List.map_map]
  congr 1
  apply List.map_congr_left
  intro s hs
  obtain ⟨ha, hb, hc⟩ := hgood s hs
  exact cmd_str_good s.1 ha s.2.1 s.2.2 u hb hc

/-- C6 (amended): over the embedded command classes whose keyword
capitalization matches their class name in `zgoubidoo.commands`
(`Marker`/`Cible`/`Histo`/`Image`/`End`), with a clean token sequence name,
clean token labels (`LABEL2` empty or a clean token) and a clean fresh
label for the implicit `End`, serializing and parsing round-trips exactly:
the parsed input's command sequence is the serialized one -- the original
commands (labels and declared parameters included) plus the implicitly
appended terminal `End` when the original does not already end with one.
As literally stated the claim fails on both counts recorded in the
counterexample: a serialized `AutoRef` block cannot be parsed back
(capitalization mismatch), and the implicit `End` changes the keyword
sequence. -/
theorem claim6_roundtrip_amended (name u fresh : String)
    (specs : List (Kind × String × String))
    (hname : tokenOk name.data = true) (hfresh : tokenOk fresh.data = true)
    (hspecs : ∀ s ∈ specs, goodKind s.1 = true ∧ tokenOk s.2.1.data = true
      ∧ tokenOrEmpty s.2.2.data = true) :
    Input.parse (Input.build name (specs.map (initOf u)) fresh)
      = Except.ok { name := "beamline", line := specs.map (initOf u) ++ Input.buildExtraEnd (specs.map (initOf u)) fresh, paths := [], extraDict := [] } := by
  have hirrel : ∀ s ∈ specs, Command.init s.1 s.2.1 s.2.2 "" [] = initOf u s := by
    intro s hs
    obtain ⟨_, hb, _⟩ := hspecs s hs
    have hne : ¬ s.2.1 = "" := by
      intro e
      rw [e] at hb
      exact absurd hb (by decide)
    exact init_fresh_irrel s.1 s.2.1 s.2.2 "" u hne
  by_cases hend : (specs.map (initOf u)).length = 0
      ∨ (((specs.map (initOf u)).getLast?.map Command.isEnd).getD false) = false
  · have hextra : Input.buildExtraEnd (specs.map (initOf u)) fresh
        = [Command.init Kind.endcmd "" "" fresh []] := by
      unfold Input.buildExtraEnd
      rw [if_pos hend]
    have hSgood : ∀ s ∈ specs ++ [(Kind.endcmd, fresh, "")],
        goodKind s.1 = true ∧ tokenOk s.2.1.data = true ∧ tokenOrEmpty s.2.2.data = true := by
      intro s hs
      rw [List.mem_append] at hs
      rcases hs with hs | hs
      · exact hspecs s hs
      · rw [List.mem_singleton] at hs
        subst hs
        exact ⟨rfl, hfresh, rfl⟩
    have hstr : Command.str (Command.init Kind.endcmd "" "" fresh [])
        = segBase (Kind.keyword Kind.endcmd).data fresh.data "".data := by
      rw [← endInit_eq fresh]
      exact cmd_str_good Kind.endcmd (by decide) fresh "" "" hfresh (by decide)
    have hbuild : Input.build name (specs.map (initOf u)) fresh
        = name.data ++ segsOf ((specs ++ [(Kind.endcmd, fresh, "")]).map trOf) := by
      unfold Input.build
      rw [hextra, List.map_append, segsOf_append, strs_eq_segs u specs hspecs]
      simp [segsOf, trOf, hstr, List.append_assoc]
    have hlineEq : (specs ++ [(Kind.endcmd, fresh, "")]).map
          (fun s => Command.init s.1 s.2.1 s.2.2 "" [])
        = specs.map (initOf u) ++ [Command.init Kind.endcmd "" "" fresh []] := by
      rw [List.map_append]
      congr 1
      · exact List.map_congr_left hirrel
      · simp only [List.map_cons, List.map_nil]
        rw [endInit_eq fresh]
    have hSne : specs ++ [(Kind.endcmd, fresh, "")] ≠ [] := by simp
    rw [hbuild, parse_name_segs name.data _ hname hSne hSgood, hlineEq, hextra]
  · have hextra : Input.buildExtraEnd (specs.map (initOf u)) fresh = [] := by
      unfold Input.buildExtraEnd
      rw [if_neg hend]
    have hSne : specs ≠ [] := by
      intro e
      subst e
      exact hend (Or.inl rfl)
    have hbuild : Input.build name (specs.map (initOf u)) fresh
        = name.data ++ segsOf (specs.map trOf) := by
      unfold Input.build
      rw [hextra, strs_eq_segs u specs hspecs]
      simp
    rw [hbuild, parse_name_segs name.data specs hname hSne hspecs,
      List.map_congr_left hirrel, hextra]
    simp

/-- Witness for C6 (amended) at a one-element `Marker` sequence: the
implicit `End` is appended and the round trip is exact. -/
theorem claim6_witness :
    Input.parse (Input.build "bl" ([(Kind.marker, "M1", "")].map (initOf "U")) "FR")
      = Except.ok { name := "beamline", line := [(Kind.marker, "M1", "")].map (initOf "U") ++ Input.buildExtraEnd ([(Kind.marker, "M1", "")].map (initOf "U")) "FR", paths := [], extraDict := [] } :=
  claim6_roundtrip_amended "bl" "U" "FR" [(Kind.marker, "M1", "")] (by decide) (by decide)
    (by decide)

end Zgoubidoo
